import Mathlib

/-!
# Verification of GIMP's contiguous-region selection engine

A shallow embedding of `app/core/gimpimage-contiguous-region.c`:
the similarity evaluator (`pixel_difference`), the global threshold
selector (`gimp_image_contiguous_region_by_color`), the scanline
segment finder (`find_contiguous_segment`) and the work-list driven
region grower (`find_contiguous_region_helper` /
`gimp_image_contiguous_region_by_seed`).

`gfloat` values are embedded as `ℚ`; buffers are total functions from
integer coordinates, with GEGL's `GEGL_ABYSS_NONE` out-of-extent reads
returning zeros.  The GLib `g_return_val_if_fail` guards at the entry
points are embedded as boolean validity flags.  The outer work-list
loop is embedded with explicit fuel (the C loop has no structural
termination measure); enough fuel always exists for the runs the
theorems below consider.
-/

namespace Gimp

/-- A color in the floating-point comparison format: channel index ↦ value. -/
def Color : Type := ℕ → ℚ

/-- The active members of `GimpSelectCriterion` (the H/S/V members are
compiled out with `#if 0` in the source). -/
inductive SelectCriterion
  | composite
  | r
  | g
  | b
deriving DecidableEq

/-- The maximum channel delta computed by the `GIMP_SELECT_CRITERION_COMPOSITE`
loop `for (b = 0; b < n_components; b++)` in `pixel_difference`. -/
def composite_max (col1 col2 : Color) : ℕ → ℚ
  | 0 => 0
  | n + 1 => max (composite_max col1 col2 n) |col1 n - col2 n|

/-- The raw difference `max` computed by `pixel_difference` before the
threshold/antialias post-processing: the alpha delta when selecting
transparency, otherwise the per-criterion color-channel delta (alpha
excluded from the composite loop when present). -/
def raw_max (col1 col2 : Color) (n_components : ℕ)
    (has_alpha select_transparent : Bool)
    (select_criterion : SelectCriterion) : ℚ :=
  if select_transparent = true ∧ has_alpha = true then
    |col1 (n_components - 1) - col2 (n_components - 1)|
  else
    let nc := if has_alpha = true then n_components - 1 else n_components
    match select_criterion with
    | .composite => composite_max col1 col2 nc
    | .r => |col1 0 - col2 0|
    | .g => |col1 1 - col2 1|
    | .b => |col1 2 - col2 2|

/-- The function `pixel_difference` from the source: the early return for fully
transparent samples, then the raw difference, then the antialias ramp
or the hard threshold cutoff. -/
def pixel_difference (col1 col2 : Color) (antialias : Bool) (threshold : ℚ)
    (n_components : ℕ) (has_alpha select_transparent : Bool)
    (select_criterion : SelectCriterion) : ℚ :=
  if select_transparent = false ∧ has_alpha = true ∧ col2 (n_components - 1) = 0 then 0
  else
    let m := raw_max col1 col2 n_components has_alpha select_transparent select_criterion
    if antialias = true ∧ threshold > 0 then
      let aa := 3/2 - m / threshold
      if aa ≤ 0 then 0
      else if aa < 1/2 then aa * 2
      else 1
    else
      if m > threshold then 0 else 1

/-- The source pixel buffer in the comparison format: width, height,
number of components of the comparison format, alpha presence, and the
in-extent pixel data. -/
structure SrcBuffer where
  width : ℤ
  height : ℤ
  n_components : ℕ
  has_alpha : Bool
  pix : ℤ → ℤ → Color

/-- Sampling via `gegl_buffer_sample` with `GEGL_SAMPLER_NEAREST` and
`GEGL_ABYSS_NONE`: in-extent reads return the pixel, out-of-extent
reads return zeros. -/
def gegl_sample (src : SrcBuffer) (x y : ℤ) : Color :=
  if 0 ≤ x ∧ x < src.width ∧ 0 ≤ y ∧ y < src.height then src.pix x y
  else fun _ => 0

/-- The mask buffer, zero-initialized by `gimp_channel_new_mask`. -/
def Mask : Type := ℤ → ℤ → ℚ

def zeroMask : Mask := fun _ _ => 0

/-- The similarity settings threaded through a region-growing run. -/
structure Params where
  antialias : Bool
  threshold : ℚ
  n_components : ℕ
  has_alpha : Bool
  select_transparent : Bool
  select_criterion : SelectCriterion

/-- The evaluator applied to the reference color and the sample at
`(x, y)`, exactly as every `pixel_difference` call site inside
`find_contiguous_segment` does it. -/
def evalAt (src : SrcBuffer) (p : Params) (col : Color) (x y : ℤ) : ℚ :=
  pixel_difference col (gegl_sample src x y) p.antialias p.threshold
    p.n_components p.has_alpha p.select_transparent p.select_criterion

/-- The left-expansion loop of `find_contiguous_segment`
(`while (*start >= 0 && diff) { ... }`), fuel-indexed so that it
computes by structural recursion; `seg_left` supplies sufficient fuel. -/
def seg_left_go (ev : ℤ → ℚ) : ℕ → ℤ → ℤ
  | 0, s => s
  | n + 1, s => if 0 ≤ s ∧ ev s ≠ 0 then seg_left_go ev n (s - 1) else s

def seg_left (ev : ℤ → ℚ) (s : ℤ) : ℤ := seg_left_go ev (s + 1).toNat s

/-- The right-expansion loop of `find_contiguous_segment`
(`while (*end < width && diff) { ... }`). -/
def seg_right_go (ev : ℤ → ℚ) (width : ℤ) : ℕ → ℤ → ℤ
  | 0, e => e
  | n + 1, e => if e < width ∧ ev e ≠ 0 then seg_right_go ev width n (e + 1) else e

def seg_right (ev : ℤ → ℚ) (width : ℤ) (e : ℤ) : ℤ :=
  seg_right_go ev width (width - e).toNat e

/-- The function `find_contiguous_segment`, probe and boundary search: `none` when the
probe at `(x, y)` evaluates to 0 (`return FALSE` before any write),
otherwise the final `*start` and `*end` cursors. -/
def find_contiguous_segment (src : SrcBuffer) (p : Params) (col : Color)
    (width : ℤ) (x y : ℤ) : Option (ℤ × ℤ) :=
  if evalAt src p col x y = 0 then none
  else some (seg_left (fun c => evalAt src p col c y) (x - 1),
             seg_right (fun c => evalAt src p col c y) width (x + 1))

/-- The bulk write `gegl_buffer_set (mask_buffer, GEGL_RECTANGLE (*start,
initial_y, *end - *start, 1), ..., &mask_row[*start], ...)` performed on
a successful `find_contiguous_segment`.  The written rectangle is
clipped to the mask buffer's extent (GEGL clips, offsetting into the
source data); each surviving cell `(cx, y)` with `start ≤ cx < end`
receives `mask_row[cx]`, and the loops of `find_contiguous_segment`
stored exactly `pixel_difference (col, sample (cx, y))` there. -/
def segWriteCovers (src : SrcBuffer) (y s e cx cy : ℤ) : Prop :=
  cy = y ∧ s ≤ cx ∧ cx < e ∧ 0 ≤ cx ∧ cx < src.width ∧ 0 ≤ cy ∧ cy < src.height

instance (src : SrcBuffer) (y s e cx cy : ℤ) :
    Decidable (segWriteCovers src y s e cx cy) := by
  unfold segWriteCovers; infer_instance

/-- Applying the bulk write: covered cells receive the evaluator output
recorded in `mask_row`, all other cells keep their previous value. -/
def segWrite (src : SrcBuffer) (p : Params) (col : Color) (mask : Mask)
    (y s e : ℤ) : Mask :=
  fun cx cy =>
    if segWriteCovers src y s e cx cy then evalAt src p col cx cy
    else mask cx cy

/-- State of a region-growing run: the mask, the pending work list of
`(row, exclusive start, exclusive end)` spans (`coord_stack`, FIFO:
pushed at the tail, popped at the head), and the log of bulk writes
`(row, start, end)` performed so far (in order). -/
structure RState where
  mask : Mask
  queue : List (ℤ × ℤ × ℤ)
  log : List (ℤ × ℤ × ℤ)

/-- The inner loop `for (x = start + 1; x < end; x++)` of
`find_contiguous_region_helper`: skip cells whose mask value is already
non-zero, probe a segment otherwise, and on success perform the bulk
write and push the `(y ± 1, new_start, new_end)` spans (up first, then
down, each guarded by the bounds check).  Fuel-indexed; `process_row`
supplies sufficient fuel. -/
def row_go (src : SrcBuffer) (p : Params) (col : Color) (y e : ℤ) :
    ℕ → ℤ → Mask → List (ℤ × ℤ × ℤ) → List (ℤ × ℤ × ℤ) →
    Mask × List (ℤ × ℤ × ℤ) × List (ℤ × ℤ × ℤ)
  | 0, _, mask, acc, log => (mask, acc, log)
  | n + 1, x, mask, acc, log =>
    if x < e then
      if mask x y ≠ 0 then row_go src p col y e n (x + 1) mask acc log
      else
        match find_contiguous_segment src p col src.width x y with
        | none => row_go src p col y e n (x + 1) mask acc log
        | some (ns, ne) =>
          let mask' := segWrite src p col mask y ns ne
          let acc' := acc ++
            (if y + 1 < src.height then [(y + 1, ns, ne)] else []) ++
            (if 0 ≤ y - 1 then [(y - 1, ns, ne)] else [])
          row_go src p col y e n (x + 1) mask' acc' (log ++ [(y, ns, ne)])
    else (mask, acc, log)

def process_row (src : SrcBuffer) (p : Params) (col : Color)
    (y s e : ℤ) (mask : Mask) (log : List (ℤ × ℤ × ℤ)) :
    Mask × List (ℤ × ℤ × ℤ) × List (ℤ × ℤ × ℤ) :=
  row_go src p col y e (e - (s + 1)).toNat (s + 1) mask [] log

/-- The outer `do { ... } while (! g_queue_is_empty (coord_stack))` loop
of `find_contiguous_region_helper`, with explicit fuel. -/
def region_loop (src : SrcBuffer) (p : Params) (col : Color) :
    ℕ → RState → RState
  | 0, st => st
  | fuel + 1, st =>
    match st.queue with
    | [] => st
    | (y, s, e) :: rest =>
      let r := process_row src p col y s e st.mask st.log
      region_loop src p col fuel ⟨r.1, rest ++ r.2.1, r.2.2⟩

/-- The function `find_contiguous_region_helper`: seed the work list with
`(y, x - 1, x + 1)` and drain it. -/
def find_contiguous_region_helper (src : SrcBuffer) (p : Params) (col : Color)
    (x y : ℤ) (fuel : ℕ) : RState :=
  region_loop src p col fuel ⟨zeroMask, [(y, x - 1, x + 1)], []⟩

/-- The transparency-selection adjustment of
`gimp_image_contiguous_region_by_seed` (its nested `if` block), applied
to the color sampled at the seed. -/
def seed_select_transparent (src : SrcBuffer) (select_transparent : Bool)
    (start_col : Color) : Bool :=
  if src.has_alpha = true then
    if select_transparent = true then
      if start_col (src.n_components - 1) > 0 then false else select_transparent
    else select_transparent
  else false

/-- The `Params` record handed by `gimp_image_contiguous_region_by_seed`
to `find_contiguous_region_helper` (criterion settings plus the adjusted
transparency flag; components and alpha read off the comparison format). -/
def seedParams (src : SrcBuffer) (antialias : Bool) (threshold : ℚ)
    (select_transparent : Bool) (crit : SelectCriterion) (x y : ℤ) : Params :=
  ⟨antialias, threshold, src.n_components, src.has_alpha,
    seed_select_transparent src select_transparent (gegl_sample src x y), crit⟩

/-- The body of `gimp_image_contiguous_region_by_seed` after its
`g_return_val_if_fail` guards: sample the seed, adjust the transparency
flag, run the region grower on a fresh zero mask. -/
def by_seed_state (src : SrcBuffer) (antialias : Bool) (threshold : ℚ)
    (select_transparent : Bool) (crit : SelectCriterion) (x y : ℤ)
    (fuel : ℕ) : RState :=
  find_contiguous_region_helper src
    (seedParams src antialias threshold select_transparent crit x y)
    (gegl_sample src x y) x y fuel

/-- The entry point `gimp_image_contiguous_region_by_seed` with its guards:
`g_return_val_if_fail (GIMP_IS_IMAGE (image), NULL)` and
`g_return_val_if_fail (GIMP_IS_DRAWABLE (drawable), NULL)` are embedded
as validity flags; there is no guard on the seed coordinates. -/
def gimp_image_contiguous_region_by_seed (image_valid drawable_valid : Bool)
    (src : SrcBuffer) (antialias : Bool) (threshold : ℚ)
    (select_transparent : Bool) (crit : SelectCriterion) (x y : ℤ)
    (fuel : ℕ) : Option RState :=
  if image_valid = false then none
  else if drawable_valid = false then none
  else some (by_seed_state src antialias threshold select_transparent crit x y fuel)

/-- The transparency-selection adjustment of
`gimp_image_contiguous_region_by_color`, applied to the caller-supplied
reference color converted to "RGBA float" (alpha at index 3). -/
def color_select_transparent (has_alpha select_transparent : Bool)
    (col : Color) : Bool :=
  if has_alpha = true then
    if select_transparent = true then
      if col 3 > 0 then false else select_transparent
    else select_transparent
  else false

/-- The scan of `gimp_image_contiguous_region_by_color`: every pixel of
the source is evaluated independently against the reference color and
the result written to the corresponding mask cell (the iterator visits
exactly the buffer's extent; the fresh mask is zero elsewhere).
`n_components` is `has_alpha ? 4 : 3` as at the call site. -/
def by_color_mask (src : SrcBuffer) (antialias : Bool) (threshold : ℚ)
    (select_transparent : Bool) (crit : SelectCriterion) (col : Color) : Mask :=
  let st := color_select_transparent src.has_alpha select_transparent col
  fun x y =>
    if 0 ≤ x ∧ x < src.width ∧ 0 ≤ y ∧ y < src.height then
      pixel_difference col (src.pix x y) antialias threshold
        (if src.has_alpha = true then 4 else 3) src.has_alpha st crit
    else 0

/-- The entry point `gimp_image_contiguous_region_by_color` with its guards:
image/drawable validity and `color != NULL`. -/
def gimp_image_contiguous_region_by_color (image_valid drawable_valid : Bool)
    (src : SrcBuffer) (antialias : Bool) (threshold : ℚ)
    (select_transparent : Bool) (crit : SelectCriterion)
    (color : Option Color) : Option Mask :=
  if image_valid = false then none
  else if drawable_valid = false then none
  else
    match color with
    | none => none
    | some col =>
      some (by_color_mask src antialias threshold select_transparent crit col)

/-- The antialias ramp exactly as §4.1 rule 4 of the spec words it:
`aa = 1.5 − max/threshold`; 0 when `aa ≤ 0`, `aa·2` when `0 < aa < 0.5`,
1 otherwise. -/
def aa_ramp (m threshold : ℚ) : ℚ :=
  let aa := 3/2 - m / threshold
  if aa ≤ 0 then 0 else if aa < 1/2 then aa * 2 else 1

/-! ## Concrete instances used by counterexamples and witnesses -/

/-- Fully transparent black in the comparison format: all channels 0. -/
def transparentBlack : Color := fun _ => 0

/-- Opaque black in RGBA float: alpha 1, color channels 0. -/
def opaqueBlack : Color := fun n => if n = 3 then 1 else 0

/-- A 3×1 RGB row whose left pixel (all channels 1) differs from the
remaining two pixels (all channels 0). -/
def rowSrc : SrcBuffer :=
  ⟨3, 1, 3, false, fun x _ => if x = 0 then (fun _ => 1) else (fun _ => 0)⟩

def rowParams : Params := ⟨false, 0, 3, false, false, .composite⟩

/-- A 3×2 uniform opaque RGBA image. -/
def uniformOpaqueSrc : SrcBuffer := ⟨3, 2, 4, true, fun _ _ => opaqueBlack⟩

/-- A 1×1 uniform fully transparent RGBA image. -/
def transparentSrc : SrcBuffer := ⟨1, 1, 4, true, fun _ _ => transparentBlack⟩

/-- A 2×1 RGBA image: opaque pixel at x = 0, fully transparent at x = 1. -/
def holeSrc : SrcBuffer :=
  ⟨2, 1, 4, true, fun x _ => if x = 0 then opaqueBlack else transparentBlack⟩

/-! ## Basic lemmas about the evaluator -/

/-- Unfolding lemma for `pixel_difference` with the `let` bindings
resolved and the antialias branch expressed through `aa_ramp` (the
code's inline ramp and the spec's ramp are the same formula). -/
theorem pixel_difference_eq (col1 col2 : Color) (antialias : Bool)
    (threshold : ℚ) (n : ℕ) (ha st : Bool) (crit : SelectCriterion) :
    pixel_difference col1 col2 antialias threshold n ha st crit =
      if st = false ∧ ha = true ∧ col2 (n - 1) = 0 then 0
      else if antialias = true ∧ 0 < threshold then
        aa_ramp (raw_max col1 col2 n ha st crit) threshold
      else if threshold < raw_max col1 col2 n ha st crit then 0 else 1 := rfl

/-- Rule 1 of §4.1: a fully transparent sample is never selected when
transparency selection is off and the source has alpha. -/
theorem pixel_difference_transparent_sample (col1 col2 : Color)
    (antialias : Bool) (threshold : ℚ) (n : ℕ) (st : Bool)
    (crit : SelectCriterion) (hst : st = false) (h0 : col2 (n - 1) = 0) :
    pixel_difference col1 col2 antialias threshold n true st crit = 0 := by
  rw [pixel_difference_eq, if_pos ⟨hst, rfl, h0⟩]

theorem composite_max_comm (col1 col2 : Color) (n : ℕ) :
    composite_max col1 col2 n = composite_max col2 col1 n := by
  induction n with
  | zero => rfl
  | succ n ih => simp [composite_max, ih, abs_sub_comm]

theorem composite_max_eq_zero (col1 col2 : Color) (n : ℕ)
    (h : ∀ b, b < n → col1 b = col2 b) :
    composite_max col1 col2 n = 0 := by
  induction n with
  | zero => rfl
  | succ n ih =>
    rw [composite_max, ih (fun b hb => h b (Nat.lt_succ_of_lt hb)),
      h n (Nat.lt_succ_self n)]
    simp

/-- In the non-transparency branch, `raw_max` for the composite
criterion is the composite loop over the color channels. -/
theorem raw_max_composite (col1 col2 : Color) (n : ℕ) (ha st : Bool)
    (h : ¬(st = true ∧ ha = true)) :
    raw_max col1 col2 n ha st .composite =
      composite_max col1 col2 (if ha = true then n - 1 else n) := by
  unfold raw_max
  rw [if_neg h]

/-- In the transparency branch, `raw_max` is the alpha delta. -/
theorem raw_max_alpha (col1 col2 : Color) (n : ℕ) (ha st : Bool)
    (crit : SelectCriterion) (h : st = true ∧ ha = true) :
    raw_max col1 col2 n ha st crit =
      |col1 (n - 1) - col2 (n - 1)| := by
  unfold raw_max
  rw [if_pos h]

/-- The raw difference of a color against itself is 0 for every
criterion and setting. -/
theorem raw_max_self (c : Color) (n : ℕ) (ha st : Bool)
    (crit : SelectCriterion) : raw_max c c n ha st crit = 0 := by
  unfold raw_max
  by_cases h : st = true ∧ ha = true
  · rw [if_pos h]; simp
  · rw [if_neg h]
    cases crit <;>
      simp [composite_max_eq_zero c c _ (fun _ _ => rfl)]

theorem raw_max_comm (col1 col2 : Color) (n : ℕ) (ha st : Bool) :
    raw_max col1 col2 n ha st .composite = raw_max col2 col1 n ha st .composite := by
  unfold raw_max
  by_cases h : st = true ∧ ha = true
  · rw [if_pos h, if_pos h, abs_sub_comm]
  · rw [if_neg h, if_neg h]
    exact composite_max_comm col1 col2 _

/-! ## Boundary-search lemmas for the segment finder -/

theorem seg_left_go_spec (ev : ℤ → ℚ) :
    ∀ (fuel : ℕ) (s : ℤ), -1 ≤ s → (s + 1).toNat ≤ fuel →
      -1 ≤ seg_left_go ev fuel s ∧ seg_left_go ev fuel s ≤ s ∧
      (seg_left_go ev fuel s = -1 ∨ ev (seg_left_go ev fuel s) = 0) ∧
      (∀ c, seg_left_go ev fuel s < c → c ≤ s → ev c ≠ 0) := by
  intro fuel
  induction fuel with
  | zero =>
    intro s hs hf
    have hs1 : s = -1 := by omega
    subst hs1
    have h0 : seg_left_go ev 0 (-1) = -1 := rfl
    rw [h0]
    exact ⟨le_refl _, le_refl _, Or.inl rfl, fun c h1 h2 => absurd h2 (by omega)⟩
  | succ n ih =>
    intro s hs hf
    simp only [seg_left_go]
    by_cases hcond : 0 ≤ s ∧ ev s ≠ 0
    · rw [if_pos hcond]
      have h' := ih (s - 1) (by omega) (by omega)
      refine ⟨h'.1, by omega, h'.2.2.1, ?_⟩
      intro c h1 h2
      by_cases hc : c = s
      · subst hc; exact hcond.2
      · exact h'.2.2.2 c h1 (by omega)
    · rw [if_neg hcond]
      refine ⟨hs, le_refl s, ?_, fun c h1 h2 => absurd h2 (by omega)⟩
      by_cases h0 : 0 ≤ s
      · right
        by_contra hne
        exact hcond ⟨h0, hne⟩
      · left; omega

theorem seg_left_spec (ev : ℤ → ℚ) (s : ℤ) (hs : -1 ≤ s) :
    -1 ≤ seg_left ev s ∧ seg_left ev s ≤ s ∧
    (seg_left ev s = -1 ∨ ev (seg_left ev s) = 0) ∧
    (∀ c, seg_left ev s < c → c ≤ s → ev c ≠ 0) :=
  seg_left_go_spec ev ((s + 1).toNat) s hs (le_refl _)

theorem seg_right_go_spec (ev : ℤ → ℚ) (width : ℤ) :
    ∀ (fuel : ℕ) (e : ℤ), e ≤ width → (width - e).toNat ≤ fuel →
      e ≤ seg_right_go ev width fuel e ∧ seg_right_go ev width fuel e ≤ width ∧
      (seg_right_go ev width fuel e = width ∨ ev (seg_right_go ev width fuel e) = 0) ∧
      (∀ c, e ≤ c → c < seg_right_go ev width fuel e → ev c ≠ 0) := by
  intro fuel
  induction fuel with
  | zero =>
    intro e he hf
    have he1 : e = width := by omega
    subst he1
    have h0 : seg_right_go ev e 0 e = e := rfl
    rw [h0]
    exact ⟨le_refl _, le_refl _, Or.inl rfl, fun c h1 h2 => absurd h1 (by omega)⟩
  | succ n ih =>
    intro e he hf
    simp only [seg_right_go]
    by_cases hcond : e < width ∧ ev e ≠ 0
    · rw [if_pos hcond]
      have h' := ih (e + 1) (by omega) (by omega)
      refine ⟨by omega, h'.2.1, h'.2.2.1, ?_⟩
      intro c h1 h2
      by_cases hc : c = e
      · subst hc; exact hcond.2
      · exact h'.2.2.2 c (by omega) h2
    · rw [if_neg hcond]
      refine ⟨le_refl e, he, ?_, fun c h1 h2 => absurd h1 (by omega)⟩
      by_cases h0 : e < width
      · right
        by_contra hne
        exact hcond ⟨h0, hne⟩
      · left; omega

theorem seg_right_spec (ev : ℤ → ℚ) (width e : ℤ) (he : e ≤ width) :
    e ≤ seg_right ev width e ∧ seg_right ev width e ≤ width ∧
    (seg_right ev width e = width ∨ ev (seg_right ev width e) = 0) ∧
    (∀ c, e ≤ c → c < seg_right ev width e → ev c ≠ 0) :=
  seg_right_go_spec ev width ((width - e).toNat) e he (le_refl _)

/-- Full characterization of a successful `find_contiguous_segment`
probe at an in-bounds column: the returned boundary columns bracket the
probe, each boundary is the buffer edge or a column whose evaluation is
0, and every column strictly between them evaluates non-zero. -/
theorem find_contiguous_segment_spec (src : SrcBuffer) (p : Params)
    (col : Color) (width x y s e : ℤ) (hx0 : 0 ≤ x) (hxw : x < width)
    (h : find_contiguous_segment src p col width x y = some (s, e)) :
    -1 ≤ s ∧ s ≤ x - 1 ∧ x + 1 ≤ e ∧ e ≤ width ∧
    (s = -1 ∨ evalAt src p col s y = 0) ∧
    (e = width ∨ evalAt src p col e y = 0) ∧
    (∀ c, s < c → c < e → evalAt src p col c y ≠ 0) := by
  unfold find_contiguous_segment at h
  by_cases h0 : evalAt src p col x y = 0
  · rw [if_pos h0] at h; cases h
  · rw [if_neg h0, Option.some.injEq, Prod.mk.injEq] at h
    obtain ⟨hs, he⟩ := h
    subst hs; subst he
    have hL := seg_left_spec (fun c => evalAt src p col c y) (x - 1) (by omega)
    have hR := seg_right_spec (fun c => evalAt src p col c y) width (x + 1) (by omega)
    refine ⟨hL.1, hL.2.1, hR.1, hR.2.1, hL.2.2.1, hR.2.2.1, ?_⟩
    intro c hc1 hc2
    rcases lt_trichotomy c x with hcx | hcx | hcx
    · exact hL.2.2.2 c hc1 (by omega)
    · subst hcx; exact h0
    · exact hR.2.2.2 c (by omega) hc2

/-! ## The mask-value invariant: cells hold 0 or their own evaluation -/

/-- A bulk write preserves the invariant that every cell is 0 or its own
evaluator value, since it only writes evaluator values. -/
theorem segWrite_inv (src : SrcBuffer) (p : Params) (col : Color)
    (mask : Mask) (y s e : ℤ)
    (hmask : ∀ cx cy, mask cx cy = 0 ∨ mask cx cy = evalAt src p col cx cy) :
    ∀ cx cy, segWrite src p col mask y s e cx cy = 0 ∨
      segWrite src p col mask y s e cx cy = evalAt src p col cx cy := by
  intro cx cy
  unfold segWrite
  by_cases h : segWriteCovers src y s e cx cy
  · rw [if_pos h]; right; rfl
  · rw [if_neg h]; exact hmask cx cy

/-- A bulk write never changes a non-zero cell (the only value it could
write there is the evaluator value the cell already holds). -/
theorem segWrite_preserve (src : SrcBuffer) (p : Params) (col : Color)
    (mask : Mask) (y s e : ℤ)
    (hmask : ∀ cx cy, mask cx cy = 0 ∨ mask cx cy = evalAt src p col cx cy) :
    ∀ cx cy, mask cx cy ≠ 0 → segWrite src p col mask y s e cx cy = mask cx cy := by
  intro cx cy hne
  unfold segWrite
  by_cases h : segWriteCovers src y s e cx cy
  · rw [if_pos h]
    rcases hmask cx cy with h0 | he
    · exact absurd h0 hne
    · exact he.symm
  · rw [if_neg h]

theorem row_go_inv (src : SrcBuffer) (p : Params) (col : Color) (y e : ℤ) :
    ∀ (fuel : ℕ) (x : ℤ) (mask : Mask) (acc log : List (ℤ × ℤ × ℤ)),
      (∀ cx cy, mask cx cy = 0 ∨ mask cx cy = evalAt src p col cx cy) →
      (∀ cx cy, (row_go src p col y e fuel x mask acc log).1 cx cy = 0 ∨
        (row_go src p col y e fuel x mask acc log).1 cx cy = evalAt src p col cx cy) ∧
      (∀ cx cy, mask cx cy ≠ 0 →
        (row_go src p col y e fuel x mask acc log).1 cx cy = mask cx cy) := by
  intro fuel
  induction fuel with
  | zero => intro x mask acc log hmask; exact ⟨hmask, fun _ _ _ => rfl⟩
  | succ n ih =>
    intro x mask acc log hmask
    simp only [row_go]
    by_cases hxe : x < e
    · rw [if_pos hxe]
      by_cases hskip : mask x y ≠ 0
      · rw [if_pos hskip]
        exact ih (x + 1) mask acc log hmask
      · rw [if_neg hskip]
        cases hseg : find_contiguous_segment src p col src.width x y with
        | none => exact ih (x + 1) mask acc log hmask
        | some r =>
          obtain ⟨ns, ne⟩ := r
          have hw := segWrite_inv src p col mask y ns ne hmask
          have hp := segWrite_preserve src p col mask y ns ne hmask
          have h' := ih (x + 1) (segWrite src p col mask y ns ne)
            (acc ++ (if y + 1 < src.height then [(y + 1, ns, ne)] else []) ++
              (if 0 ≤ y - 1 then [(y - 1, ns, ne)] else []))
            (log ++ [(y, ns, ne)]) hw
          refine ⟨h'.1, ?_⟩
          intro cx cy hne
          exact (h'.2 cx cy (by rw [hp cx cy hne]; exact hne)).trans (hp cx cy hne)
    · rw [if_neg hxe]
      exact ⟨hmask, fun _ _ _ => rfl⟩

/-- With an empty work list the outer loop is the identity. -/
theorem region_loop_empty (src : SrcBuffer) (p : Params) (col : Color) :
    ∀ (fuel : ℕ) (st : RState), st.queue = [] →
      region_loop src p col fuel st = st := by
  intro fuel st h
  cases fuel with
  | zero => rfl
  | succ n => simp only [region_loop, h]

/-- One step of the outer loop: pop the head span, process its row, and
append the new spans at the tail. -/
theorem region_loop_cons (src : SrcBuffer) (p : Params) (col : Color)
    (m : ℕ) (st : RState) (y s e : ℤ) (rest : List (ℤ × ℤ × ℤ))
    (hq : st.queue = (y, s, e) :: rest) :
    region_loop src p col (m + 1) st =
      region_loop src p col m
        ⟨(process_row src p col y s e st.mask st.log).1,
         rest ++ (process_row src p col y s e st.mask st.log).2.1,
         (process_row src p col y s e st.mask st.log).2.2⟩ := by
  simp only [region_loop, hq]

theorem region_loop_inv (src : SrcBuffer) (p : Params) (col : Color) :
    ∀ (fuel : ℕ) (st : RState),
      (∀ cx cy, st.mask cx cy = 0 ∨ st.mask cx cy = evalAt src p col cx cy) →
      (∀ cx cy, (region_loop src p col fuel st).mask cx cy = 0 ∨
        (region_loop src p col fuel st).mask cx cy = evalAt src p col cx cy) ∧
      (∀ cx cy, st.mask cx cy ≠ 0 →
        (region_loop src p col fuel st).mask cx cy = st.mask cx cy) := by
  intro fuel
  induction fuel with
  | zero => intro st hmask; exact ⟨hmask, fun _ _ _ => rfl⟩
  | succ n ih =>
    intro st hmask
    cases hq : st.queue with
    | nil =>
      rw [region_loop_empty src p col (n + 1) st hq]
      exact ⟨hmask, fun _ _ _ => rfl⟩
    | cons hd rest =>
      obtain ⟨y, s, e⟩ := hd
      rw [region_loop_cons src p col n st y s e rest hq]
      have hrow := row_go_inv src p col y e
        (e - (s + 1)).toNat (s + 1) st.mask [] st.log hmask
      have h' := ih ⟨(process_row src p col y s e st.mask st.log).1,
        rest ++ (process_row src p col y s e st.mask st.log).2.1,
        (process_row src p col y s e st.mask st.log).2.2⟩ hrow.1
      refine ⟨h'.1, ?_⟩
      intro cx cy hne
      have hrowp : (process_row src p col y s e st.mask st.log).1 cx cy = st.mask cx cy :=
        hrow.2 cx cy hne
      have hne' : (process_row src p col y s e st.mask st.log).1 cx cy ≠ 0 := by
        rw [hrowp]; exact hne
      exact (h'.2 cx cy hne').trans hrowp

/-- Running the outer loop for `f + k` steps is running it for `f`
steps and then `k` more. -/
theorem region_loop_add (src : SrcBuffer) (p : Params) (col : Color) :
    ∀ (f k : ℕ) (st : RState),
      region_loop src p col (f + k) st =
        region_loop src p col k (region_loop src p col f st) := by
  intro f
  induction f with
  | zero =>
    intro k st
    rw [Nat.zero_add]
    rfl
  | succ n ih =>
    intro k st
    have hstep : n + 1 + k = (n + k) + 1 := by omega
    rw [hstep]
    cases hq : st.queue with
    | nil =>
      rw [region_loop_empty src p col ((n + k) + 1) st hq,
        region_loop_empty src p col (n + 1) st hq,
        region_loop_empty src p col k st hq]
    | cons hd rest =>
      obtain ⟨y, s, e⟩ := hd
      rw [region_loop_cons src p col (n + k) st y s e rest hq,
        region_loop_cons src p col n st y s e rest hq, ih]

/-! ## C4: the antialias ramp -/

/-- C4 counterexample: with a fully transparent reference and sample,
alpha present, transparency selection off, antialiasing on and
threshold 1, `pixel_difference` returns 0 while the claimed ramp of the
raw difference returns 1 — the claim does not hold for every pair of
colors. -/
theorem C4_counterexample :
    pixel_difference transparentBlack transparentBlack true 1 4 true false .composite = 0 ∧
    aa_ramp (raw_max transparentBlack transparentBlack 4 true false .composite) 1 = 1 := by
  constructor
  · exact pixel_difference_transparent_sample _ _ _ _ _ _ _ rfl rfl
  · rw [raw_max_self]
    simp only [aa_ramp]
    norm_num

/-- C4 (amended): when antialiasing is on and threshold > 0, and the
transparent-sample early return does not fire (rule 1 of §4.1),
`pixel_difference` returns exactly the piecewise ramp of
`aa = 1.5 − max/threshold` applied to the raw difference; in particular
difference 0 yields 1, difference 0.75·threshold yields 1, and
difference ≥ 1.5·threshold yields 0. -/
theorem C4_aa_ramp (col1 col2 : Color) (threshold : ℚ) (n : ℕ)
    (ha st : Bool) (crit : SelectCriterion)
    (hT : 0 < threshold)
    (hnot : ¬(st = false ∧ ha = true ∧ col2 (n - 1) = 0)) :
    pixel_difference col1 col2 true threshold n ha st crit =
      aa_ramp (raw_max col1 col2 n ha st crit) threshold ∧
    (raw_max col1 col2 n ha st crit = 0 →
      pixel_difference col1 col2 true threshold n ha st crit = 1) ∧
    (raw_max col1 col2 n ha st crit = 3/4 * threshold →
      pixel_difference col1 col2 true threshold n ha st crit = 1) ∧
    (3/2 * threshold ≤ raw_max col1 col2 n ha st crit →
      pixel_difference col1 col2 true threshold n ha st crit = 0) := by
  have hmain : pixel_difference col1 col2 true threshold n ha st crit =
      aa_ramp (raw_max col1 col2 n ha st crit) threshold := by
    rw [pixel_difference_eq, if_neg hnot, if_pos ⟨rfl, hT⟩]
  refine ⟨hmain, ?_, ?_, ?_⟩
  · intro h0
    rw [hmain, h0]
    simp only [aa_ramp]
    norm_num
  · intro h34
    rw [hmain, h34]
    simp only [aa_ramp]
    rw [mul_div_assoc, div_self hT.ne']
    norm_num
  · intro h32
    rw [hmain]
    simp only [aa_ramp]
    have hdiv : 3/2 ≤ raw_max col1 col2 n ha st crit / threshold :=
      (le_div_iff₀ hT).mpr (by linarith)
    rw [if_pos (by linarith)]

/-- Witness for `C4_aa_ramp` at a concrete input (no alpha channel, so
the proviso holds trivially). -/
theorem C4_aa_ramp_witness :
    pixel_difference transparentBlack transparentBlack true 1 3 false false .composite =
      aa_ramp (raw_max transparentBlack transparentBlack 3 false false .composite) 1 :=
  (C4_aa_ramp transparentBlack transparentBlack 1 3 false false .composite
    (by norm_num) (by rintro ⟨-, h, -⟩; exact absurd h (by decide))).1

/-! ## C5: the hard threshold cutoff -/

/-- C5 counterexample: with a fully transparent reference and sample,
alpha present, transparency selection off and antialiasing off, the raw
difference is 0 ≤ threshold yet `pixel_difference` returns 0, not 1 —
the claim does not hold for every pair of colors. -/
theorem C5_counterexample :
    raw_max transparentBlack transparentBlack 4 true false .composite ≤ 1 ∧
    pixel_difference transparentBlack transparentBlack false 1 4 true false .composite = 0 := by
  constructor
  · rw [raw_max_self]; norm_num
  · exact pixel_difference_transparent_sample _ _ _ _ _ _ _ rfl rfl

/-- C5 (amended): when antialiasing is off or the threshold is 0, and
the transparent-sample early return does not fire (rule 1 of §4.1),
`pixel_difference` returns exactly 1 when the raw difference is ≤ the
threshold and exactly 0 when it exceeds it (monotone hard cutoff). -/
theorem C5_hard_cutoff (col1 col2 : Color) (antialias : Bool)
    (threshold : ℚ) (n : ℕ) (ha st : Bool) (crit : SelectCriterion)
    (hoff : antialias = false ∨ threshold = 0)
    (hnot : ¬(st = false ∧ ha = true ∧ col2 (n - 1) = 0)) :
    (raw_max col1 col2 n ha st crit ≤ threshold →
      pixel_difference col1 col2 antialias threshold n ha st crit = 1) ∧
    (threshold < raw_max col1 col2 n ha st crit →
      pixel_difference col1 col2 antialias threshold n ha st crit = 0) := by
  have hcond : ¬(antialias = true ∧ 0 < threshold) := by
    rcases hoff with h | h
    · subst h; rintro ⟨h1, -⟩; exact absurd h1 (by decide)
    · subst h; rintro ⟨-, h2⟩; exact lt_irrefl 0 h2
  constructor
  · intro hle
    rw [pixel_difference_eq, if_neg hnot, if_neg hcond, if_neg (not_lt.mpr hle)]
  · intro hgt
    rw [pixel_difference_eq, if_neg hnot, if_neg hcond, if_pos hgt]

/-- Witness for `C5_hard_cutoff` at a concrete input. -/
theorem C5_hard_cutoff_witness :
    pixel_difference transparentBlack transparentBlack false 1 3 false false .composite = 1 :=
  (C5_hard_cutoff transparentBlack transparentBlack false 1 3 false false .composite
    (Or.inl rfl) (by rintro ⟨-, h, -⟩; exact absurd h (by decide))).1
    (by rw [raw_max_self]; norm_num)

/-! ## C8: symmetry of the composite criterion -/

/-- C8 counterexample: with alpha present and transparency selection
off, swapping an opaque reference with a fully transparent sample
changes the result from 0 to 1 — the early transparent-sample return
inspects only the second argument, so `pixel_difference` is not
symmetric for every pair of colors. -/
theorem C8_counterexample :
    pixel_difference opaqueBlack transparentBlack false 0 4 true false .composite = 0 ∧
    pixel_difference transparentBlack opaqueBlack false 0 4 true false .composite = 1 := by
  constructor
  · exact pixel_difference_transparent_sample _ _ _ _ _ _ _ rfl rfl
  · have hraw : raw_max transparentBlack opaqueBlack 4 true false .composite = 0 := by
      rw [raw_max_composite _ _ _ _ _ (by rintro ⟨h, -⟩; exact absurd h (by decide))]
      refine composite_max_eq_zero _ _ _ ?_
      intro b hb
      simp at hb
      simp only [transparentBlack, opaqueBlack]
      rw [if_neg (by omega)]
    rw [pixel_difference_eq,
      if_neg (by rintro ⟨-, -, h⟩; exact absurd h (by norm_num [opaqueBlack])),
      if_neg (by rintro ⟨h, -⟩; exact absurd h (by decide)), hraw,
      if_neg (lt_irrefl 0)]

/-- C8 (amended): for the composite criterion, `pixel_difference` is
symmetric in its two colors whenever the transparent-sample early
return treats both sides alike — i.e. when alpha is absent, or
transparency selection is on, or the two alphas are both zero or both
non-zero.  (The counterexample shows the extra proviso is needed.) -/
theorem C8_symmetry (a b : Color) (antialias : Bool) (threshold : ℚ)
    (n : ℕ) (ha st : Bool)
    (h : ha = true → st = true ∨ ((a (n - 1) = 0) ↔ (b (n - 1) = 0))) :
    pixel_difference a b antialias threshold n ha st .composite =
      pixel_difference b a antialias threshold n ha st .composite := by
  rw [pixel_difference_eq, pixel_difference_eq, raw_max_comm]
  by_cases hab : st = false ∧ ha = true ∧ b (n - 1) = 0
  · have hba : st = false ∧ ha = true ∧ a (n - 1) = 0 := by
      rcases h hab.2.1 with hst | hiff
      · rw [hst] at hab; exact absurd hab.1 (by decide)
      · exact ⟨hab.1, hab.2.1, hiff.mpr hab.2.2⟩
    rw [if_pos hab, if_pos hba]
  · have hba : ¬(st = false ∧ ha = true ∧ a (n - 1) = 0) := by
      rintro ⟨h1, h2, h3⟩
      rcases h h2 with hst | hiff
      · rw [hst] at h1; exact absurd h1 (by decide)
      · exact hab ⟨h1, h2, hiff.mp h3⟩
    rw [if_neg hab, if_neg hba]

/-- Witness for `C8_symmetry` at a concrete input (no alpha channel). -/
theorem C8_symmetry_witness :
    pixel_difference opaqueBlack transparentBlack false (1/2) 3 false false .composite =
      pixel_difference transparentBlack opaqueBlack false (1/2) 3 false false .composite :=
  C8_symmetry opaqueBlack transparentBlack false (1/2) 3 false false
    (fun hcontra => absurd hcontra (by decide))

/-! ## C7: per-entry-point transparency gating -/

/-- C7: `selectByColor` enables transparency selection exactly when it
was requested, the source has alpha, and the caller-supplied reference
color's alpha (index 3 of the RGBA float conversion) is exactly zero;
`selectBySeed` enables it exactly when it was requested, the source has
alpha, and the alpha of the color sampled at the seed is not positive.
Each entry point tests its own color. -/
theorem C7_transparency_gating :
    (∀ (src : SrcBuffer) (antialias : Bool) (threshold : ℚ) (st : Bool)
        (crit : SelectCriterion) (x y : ℤ),
      (seedParams src antialias threshold st crit x y).select_transparent = true ↔
        st = true ∧ src.has_alpha = true ∧
          ¬gegl_sample src x y (src.n_components - 1) > 0) ∧
    (∀ (ha st : Bool) (col : Color), 0 ≤ col 3 →
      (color_select_transparent ha st col = true ↔
        st = true ∧ ha = true ∧ col 3 = 0)) := by
  constructor
  · intro src antialias threshold st crit x y
    show seed_select_transparent src st (gegl_sample src x y) = true ↔ _
    set c : Color := gegl_sample src x y with hc
    unfold seed_select_transparent
    cases hA : src.has_alpha
    · simp [hA]
    · cases st
      · simp [hA]
      · by_cases hc : c (src.n_components - 1) > 0
        · simp [hA, if_pos hc, hc]
        · simp [hA, if_neg hc, hc]
  · intro ha st col h0
    unfold color_select_transparent
    cases ha
    · simp
    · cases st
      · simp
      · by_cases hc : col 3 > 0
        · simp [if_pos hc, hc.ne']
        · simp [if_neg hc, le_antisymm (not_lt.mp hc) h0]

/-- Witness for `C7_transparency_gating` at concrete inputs. -/
theorem C7_transparency_gating_witness :
    (seedParams transparentSrc false 0 true .composite 0 0).select_transparent = true ∧
    color_select_transparent true true transparentBlack = true := by
  constructor
  · exact (C7_transparency_gating.1 transparentSrc false 0 true .composite 0 0).mpr
      ⟨rfl, rfl, by decide⟩
  · exact (C7_transparency_gating.2 true true transparentBlack (by decide)).mpr
      ⟨rfl, rfl, by decide⟩

/-! ## C3: entry-point precondition handling -/

/-- C3 counterexample: a seed far outside the 3-wide source is not
rejected — with valid image and drawable the call still returns a mask
state rather than the null result. -/
theorem C3_counterexample :
    (gimp_image_contiguous_region_by_seed true true uniformOpaqueSrc
        false 0 false .composite 99 0 9).isSome = true ∧
    ¬(0 ≤ (99 : ℤ) ∧ (99 : ℤ) < uniformOpaqueSrc.width) := by
  constructor
  · rfl
  · decide

/-- C3 (amended): an invalid image or drawable (and, for
`selectByColor`, a null reference color) is rejected synchronously at
the entry point with a null result before any work; a seed coordinate
outside the source bounds is not validated — with valid objects the
seeded call always proceeds and returns a mask state. -/
theorem C3_entry_guards :
    (∀ (iv dv : Bool) (src : SrcBuffer) (antialias : Bool) (threshold : ℚ)
        (st : Bool) (crit : SelectCriterion) (x y : ℤ) (fuel : ℕ),
      iv = false ∨ dv = false →
      gimp_image_contiguous_region_by_seed iv dv src antialias threshold
        st crit x y fuel = none) ∧
    (∀ (iv dv : Bool) (src : SrcBuffer) (antialias : Bool) (threshold : ℚ)
        (st : Bool) (crit : SelectCriterion) (color : Option Color),
      iv = false ∨ dv = false ∨ color = none →
      gimp_image_contiguous_region_by_color iv dv src antialias threshold
        st crit color = none) ∧
    (∀ (src : SrcBuffer) (antialias : Bool) (threshold : ℚ) (st : Bool)
        (crit : SelectCriterion) (x y : ℤ) (fuel : ℕ),
      (gimp_image_contiguous_region_by_seed true true src antialias threshold
        st crit x y fuel).isSome = true) := by
  refine ⟨?_, ?_, ?_⟩
  · intro iv dv src antialias threshold st crit x y fuel h
    unfold gimp_image_contiguous_region_by_seed
    rcases h with h | h
    · subst h; simp
    · subst h; cases iv <;> simp
  · intro iv dv src antialias threshold st crit color h
    unfold gimp_image_contiguous_region_by_color
    rcases h with h | h | h
    · subst h; simp
    · subst h; cases iv <;> simp
    · subst h; cases iv <;> cases dv <;> simp
  · intro src antialias threshold st crit x y fuel
    rfl

/-- Witness for `C3_entry_guards` at concrete inputs. -/
theorem C3_entry_guards_witness :
    gimp_image_contiguous_region_by_seed false true uniformOpaqueSrc
      false 0 false .composite 0 0 1 = none :=
  C3_entry_guards.1 false true uniformOpaqueSrc false 0 false .composite 0 0 1
    (Or.inl rfl)


/-! ## C10 and C6: consequences of the mask-value invariant -/

/-- Unfolding: `by_seed_state` is the outer loop run from the freshly zeroed mask
and the initial `(y, x − 1, x + 1)` span, with the seed-adjusted
parameters and the sampled seed color. -/
theorem by_seed_state_eq (src : SrcBuffer) (antialias : Bool) (threshold : ℚ)
    (st : Bool) (crit : SelectCriterion) (x y : ℤ) (fuel : ℕ) :
    by_seed_state src antialias threshold st crit x y fuel =
      region_loop src (seedParams src antialias threshold st crit x y)
        (gegl_sample src x y) fuel ⟨zeroMask, [(y, x - 1, x + 1)], []⟩ := rfl

/-- C10: at every outer-loop step of a seeded selection, every mask
cell is either still 0 or holds exactly the evaluator's similarity
value of that cell's pixel against the seed reference color; and a cell
that is non-zero at some step holds exactly the same value at every
later step (no step overwrites a non-zero cell with a different
value). -/
theorem C10_mask_values (src : SrcBuffer) (antialias : Bool) (threshold : ℚ)
    (st : Bool) (crit : SelectCriterion) (x y : ℤ) (fuel k : ℕ) (cx cy : ℤ) :
    ((by_seed_state src antialias threshold st crit x y fuel).mask cx cy = 0 ∨
      (by_seed_state src antialias threshold st crit x y fuel).mask cx cy =
        evalAt src (seedParams src antialias threshold st crit x y)
          (gegl_sample src x y) cx cy) ∧
    ((by_seed_state src antialias threshold st crit x y fuel).mask cx cy = 0 ∨
      (by_seed_state src antialias threshold st crit x y (fuel + k)).mask cx cy =
        (by_seed_state src antialias threshold st crit x y fuel).mask cx cy) := by
  have hzero : ∀ cx cy : ℤ, (zeroMask : Mask) cx cy = 0 ∨
      (zeroMask : Mask) cx cy =
        evalAt src (seedParams src antialias threshold st crit x y)
          (gegl_sample src x y) cx cy :=
    fun _ _ => Or.inl rfl
  have hinv := region_loop_inv src (seedParams src antialias threshold st crit x y)
    (gegl_sample src x y) fuel ⟨zeroMask, [(y, x - 1, x + 1)], []⟩ hzero
  rw [by_seed_state_eq, by_seed_state_eq]
  refine ⟨hinv.1 cx cy, ?_⟩
  by_cases h : (region_loop src (seedParams src antialias threshold st crit x y)
      (gegl_sample src x y) fuel ⟨zeroMask, [(y, x - 1, x + 1)], []⟩).mask cx cy = 0
  · exact Or.inl h
  · right
    rw [region_loop_add src (seedParams src antialias threshold st crit x y)
      (gegl_sample src x y) fuel k ⟨zeroMask, [(y, x - 1, x + 1)], []⟩]
    exact (region_loop_inv src (seedParams src antialias threshold st crit x y)
      (gegl_sample src x y) k _ hinv.1).2 cx cy h

/-- C6: a fully transparent sample is never selected when transparency
selection is off and the source has alpha (rule 1 of §4.1); and
consequently a seeded selection called with `select_transparent = false`
on an alpha source leaves the mask cell of every fully transparent
pixel at 0, no matter how the region grows around it. -/
theorem C6_transparent_never_selected :
    (∀ (col1 col2 : Color) (antialias : Bool) (threshold : ℚ) (n : ℕ)
        (st : Bool) (crit : SelectCriterion),
      st = false → col2 (n - 1) = 0 →
      pixel_difference col1 col2 antialias threshold n true st crit = 0) ∧
    (∀ (src : SrcBuffer) (antialias : Bool) (threshold : ℚ)
        (crit : SelectCriterion) (x y : ℤ) (fuel : ℕ) (cx cy : ℤ),
      src.has_alpha = true →
      gegl_sample src cx cy (src.n_components - 1) = 0 →
      (by_seed_state src antialias threshold false crit x y fuel).mask cx cy = 0) := by
  constructor
  · intro col1 col2 antialias threshold n st crit h1 h2
    exact pixel_difference_transparent_sample _ _ _ _ _ _ _ h1 h2
  · intro src antialias threshold crit x y fuel cx cy hA h0
    have hstp : seed_select_transparent src false (gegl_sample src x y) = false := by
      unfold seed_select_transparent
      cases src.has_alpha <;> simp
    have hev : evalAt src (seedParams src antialias threshold false crit x y)
        (gegl_sample src x y) cx cy = 0 := by
      show pixel_difference (gegl_sample src x y) (gegl_sample src cx cy)
        antialias threshold src.n_components src.has_alpha
        (seed_select_transparent src false (gegl_sample src x y)) crit = 0
      rw [hA, hstp]
      exact pixel_difference_transparent_sample _ _ _ _ _ _ _ rfl h0
    rw [by_seed_state_eq]
    have hinv := (region_loop_inv src (seedParams src antialias threshold false crit x y)
      (gegl_sample src x y) fuel ⟨zeroMask, [(y, x - 1, x + 1)], []⟩
      (fun _ _ => Or.inl rfl)).1 cx cy
    rcases hinv with h | h
    · exact h
    · exact h.trans hev

/-- Witness for `C6_transparent_never_selected` at a concrete input:
seeding on the opaque pixel of `holeSrc` with transparency selection
off leaves the adjacent fully transparent pixel's cell at 0. -/
theorem C6_transparent_never_selected_witness :
    (by_seed_state holeSrc false 0 false .composite 0 0 5).mask 1 0 = 0 :=
  C6_transparent_never_selected.2 holeSrc false 0 .composite 0 0 5 1 0 rfl (by decide)

/-! ## C2: uniform image, full select -/

/-- C2 counterexample: on a 1×1 uniform *fully transparent* RGBA image
with transparency selection off, threshold 0 and antialiasing off, the
seeded selection terminates (the work list drains) but the single mask
cell stays 0 rather than 1 — the seed probe is rejected by the
transparent-sample rule, so the claim fails as stated. -/
theorem C2_counterexample :
    (by_seed_state transparentSrc false 0 false .composite 0 0 5).queue = [] ∧
    (by_seed_state transparentSrc false 0 false .composite 0 0 5).mask 0 0 = 0 := by
  constructor <;> decide

/-- C2 (amended): on a uniform image the evaluator accepts every pixel
(provided the uniform color is not rejected by the transparent-sample
rule), so the run's mask is always a set of fully selected rows. -/
def rowsMask (W : ℤ) (R : Finset ℤ) : Mask :=
  fun cx cy => if cy ∈ R ∧ 0 ≤ cx ∧ cx < W then 1 else 0

theorem rowsMask_empty (W : ℤ) : rowsMask W ∅ = zeroMask := by
  funext cx cy
  simp [rowsMask, zeroMask]

/-- Self-comparison with antialias off and non-negative threshold
yields 1, unless the transparent-sample rule fires. -/
theorem pixel_difference_self_one (c : Color) (threshold : ℚ) (n : ℕ)
    (ha st2 : Bool) (crit : SelectCriterion) (hth : 0 ≤ threshold)
    (h : ¬(st2 = false ∧ ha = true ∧ c (n - 1) = 0)) :
    pixel_difference c c false threshold n ha st2 crit = 1 := by
  rw [pixel_difference_eq, if_neg h,
    if_neg (by rintro ⟨h1, -⟩; exact absurd h1 (by decide)),
    raw_max_self, if_neg (not_lt.mpr hth)]

/-- On a row where every in-extent column evaluates to 1, a successful
probe expands to the full row: the returned bounds are `(-1, width)`. -/
theorem uniform_segment (src : SrcBuffer) (p : Params) (c : Color)
    (hev : ∀ cx cy : ℤ, 0 ≤ cx → cx < src.width → 0 ≤ cy → cy < src.height →
      evalAt src p c cx cy = 1)
    (x y : ℤ) (hx0 : 0 ≤ x) (hxW : x < src.width) (hy0 : 0 ≤ y)
    (hyH : y < src.height) :
    find_contiguous_segment src p c src.width x y = some (-1, src.width) := by
  unfold find_contiguous_segment
  rw [if_neg (by rw [hev x y hx0 hxW hy0 hyH]; norm_num)]
  have hL := seg_left_spec (fun cc => evalAt src p c cc y) (x - 1) (by omega)
  have hR := seg_right_spec (fun cc => evalAt src p c cc y) src.width (x + 1) (by omega)
  have hLeq : seg_left (fun cc => evalAt src p c cc y) (x - 1) = -1 := by
    rcases hL.2.2.1 with h | h
    · exact h
    · by_cases h0 : 0 ≤ seg_left (fun cc => evalAt src p c cc y) (x - 1)
      · exfalso
        have h2 : evalAt src p c (seg_left (fun cc => evalAt src p c cc y) (x - 1)) y = 0 := h
        rw [hev _ y h0 (by omega) hy0 hyH] at h2
        norm_num at h2
      · omega
  have hReq : seg_right (fun cc => evalAt src p c cc y) src.width (x + 1) = src.width := by
    rcases hR.2.2.1 with h | h
    · exact h
    · by_cases h0 : seg_right (fun cc => evalAt src p c cc y) src.width (x + 1) < src.width
      · exfalso
        have h2 : evalAt src p c
            (seg_right (fun cc => evalAt src p c cc y) src.width (x + 1)) y = 0 := h
        rw [hev _ y (by omega) h0 hy0 hyH] at h2
        norm_num at h2
      · omega
  rw [hLeq, hReq]

/-- Writing the full-row segment into a rows mask fills exactly one
more row. -/
theorem uniform_segWrite (src : SrcBuffer) (p : Params) (c : Color)
    (hev : ∀ cx cy : ℤ, 0 ≤ cx → cx < src.width → 0 ≤ cy → cy < src.height →
      evalAt src p c cx cy = 1)
    (R : Finset ℤ) (y : ℤ) (hy0 : 0 ≤ y) (hyH : y < src.height) :
    segWrite src p c (rowsMask src.width R) y (-1) src.width =
      rowsMask src.width (insert y R) := by
  funext cx cy
  by_cases hcov : segWriteCovers src y (-1) src.width cx cy
  · have h1 : segWrite src p c (rowsMask src.width R) y (-1) src.width cx cy =
        evalAt src p c cx cy := by
      unfold segWrite
      rw [if_pos hcov]
    obtain ⟨hcy, -, hlt, hge, -, -, -⟩ := hcov
    rw [h1, hev cx cy hge hlt (by omega) (by omega)]
    unfold rowsMask
    rw [if_pos ⟨by rw [hcy]; exact Finset.mem_insert_self y R, hge, hlt⟩]
  · have h1 : segWrite src p c (rowsMask src.width R) y (-1) src.width cx cy =
        rowsMask src.width R cx cy := by
      unfold segWrite
      rw [if_neg hcov]
    rw [h1]
    unfold rowsMask
    by_cases hcy : cy = y
    · subst hcy
      have hnb : ¬(0 ≤ cx ∧ cx < src.width) := by
        intro hc
        exact hcov ⟨rfl, by omega, hc.2, hc.1, hc.2, hy0, hyH⟩
      rw [if_neg (by rintro ⟨-, h2, h3⟩; exact hnb ⟨h2, h3⟩),
        if_neg (by rintro ⟨-, h2, h3⟩; exact hnb ⟨h2, h3⟩)]
    · by_cases hmem : cy ∈ R ∧ 0 ≤ cx ∧ cx < src.width
      · rw [if_pos hmem, if_pos ⟨Finset.mem_insert_of_mem hmem.1, hmem.2⟩]
      · rw [if_neg hmem, if_neg (by
          rintro ⟨hm, hb1, hb2⟩
          exact hmem ⟨(Finset.mem_insert.mp hm).resolve_left hcy, hb1, hb2⟩)]

/-- The inner loop over an already fully selected row skips every
column and changes nothing. -/
theorem uniform_row_skip (src : SrcBuffer) (p : Params) (c : Color)
    (R : Finset ℤ) (y e : ℤ) (hy : y ∈ R) :
    ∀ (fuel : ℕ) (x : ℤ) (acc log : List (ℤ × ℤ × ℤ)), 0 ≤ x → e ≤ src.width →
      row_go src p c y e fuel x (rowsMask src.width R) acc log =
        (rowsMask src.width R, acc, log) := by
  intro fuel
  induction fuel with
  | zero => intro x acc log hx he; rfl
  | succ n ih =>
    intro x acc log hx he
    simp only [row_go]
    by_cases hxe : x < e
    · rw [if_pos hxe]
      have hmask : rowsMask src.width R x y ≠ 0 := by
        unfold rowsMask
        rw [if_pos ⟨hy, hx, by omega⟩]
        norm_num
      rw [if_pos hmask]
      exact ih (x + 1) acc log (by omega) he
    · rw [if_neg hxe]

/-- Processing a well-formed span on a not-yet-selected row of a
uniform image fills that whole row, logs the full-row write, and pushes
the in-bounds neighbour rows. -/
theorem uniform_row_fill (src : SrcBuffer) (p : Params) (c : Color)
    (hev : ∀ cx cy : ℤ, 0 ≤ cx → cx < src.width → 0 ≤ cy → cy < src.height →
      evalAt src p c cx cy = 1)
    (R : Finset ℤ) (y s e : ℤ) (hy : y ∉ R) (hy0 : 0 ≤ y) (hyH : y < src.height)
    (hs : -1 ≤ s) (hse : s + 1 < e) (he : e ≤ src.width)
    (log : List (ℤ × ℤ × ℤ)) :
    process_row src p c y s e (rowsMask src.width R) log =
      (rowsMask src.width (insert y R),
       (if y + 1 < src.height then [(y + 1, -1, src.width)] else []) ++
         (if 0 ≤ y - 1 then [(y - 1, -1, src.width)] else []),
       log ++ [(y, -1, src.width)]) := by
  unfold process_row
  obtain ⟨n, hn⟩ : ∃ n, (e - (s + 1)).toNat = n + 1 :=
    ⟨(e - (s + 1)).toNat - 1, by omega⟩
  rw [hn]
  simp only [row_go]
  rw [if_pos (show s + 1 < e by omega)]
  have hmask0 : ¬(rowsMask src.width R (s + 1) y ≠ 0) := by
    unfold rowsMask
    rw [if_neg (by rintro ⟨hm, -⟩; exact hy hm)]
    simp
  rw [if_neg hmask0,
    uniform_segment src p c hev (s + 1) y (by omega) (by omega) hy0 hyH]
  show row_go src p c y e n (s + 1 + 1)
      (segWrite src p c (rowsMask src.width R) y (-1) src.width)
      ([] ++ ((if y + 1 < src.height then [(y + 1, -1, src.width)] else []) ++
        (if 0 ≤ y - 1 then [(y - 1, -1, src.width)] else [])))
      (log ++ [(y, -1, src.width)]) = _
  rw [uniform_segWrite src p c hev R y hy0 hyH, List.nil_append,
    uniform_row_skip src p c (insert y R) y e (Finset.mem_insert_self y R)
      n (s + 1 + 1) _ _ (by omega) he]

/-- Draining the uniform run: from any rows mask, well-formed queue and
frontier invariant, enough fuel empties the queue; the final mask is a
rows mask whose row set contains every queued row, contains the initial
rows, and is closed under in-bounds vertical neighbours. -/
theorem uniform_drain (src : SrcBuffer) (p : Params) (c : Color)
    (hev : ∀ cx cy : ℤ, 0 ≤ cx → cx < src.width → 0 ≤ cy → cy < src.height →
      evalAt src p c cx cy = 1)
    (hW : 1 ≤ src.width) :
    ∀ (μ : ℕ) (R : Finset ℤ) (q log : List (ℤ × ℤ × ℤ)),
      R ⊆ Finset.Ico 0 src.height →
      (∀ ty ts te : ℤ, (ty, ts, te) ∈ q → 0 ≤ ty ∧ ty < src.height ∧
        -1 ≤ ts ∧ ts + 1 < te ∧ te ≤ src.width) →
      (∀ r ∈ R, ∀ nb : ℤ, (nb = r + 1 ∨ nb = r - 1) → 0 ≤ nb →
        nb < src.height → (nb ∈ R ∨ ∃ ts te : ℤ, (nb, ts, te) ∈ q)) →
      2 * (src.height.toNat - R.card) + q.length ≤ μ →
      ∃ R' : Finset ℤ, R ⊆ R' ∧ R' ⊆ Finset.Ico 0 src.height ∧
        (∀ ty ts te : ℤ, (ty, ts, te) ∈ q → ty ∈ R') ∧
        (∀ r ∈ R', ∀ nb : ℤ, (nb = r + 1 ∨ nb = r - 1) → 0 ≤ nb →
          nb < src.height → nb ∈ R') ∧
        (region_loop src p c μ ⟨rowsMask src.width R, q, log⟩).mask =
          rowsMask src.width R' ∧
        (region_loop src p c μ ⟨rowsMask src.width R, q, log⟩).queue = [] := by
  intro μ
  induction μ with
  | zero =>
    intro R q log hR hq hfront hμ
    have hq0 : q = [] := List.length_eq_zero.mp (by omega)
    subst hq0
    refine ⟨R, subset_rfl, hR, (by intro ty ts te ht; cases ht), ?_, rfl, rfl⟩
    intro r hr nb hnb h0 hH
    rcases hfront r hr nb hnb h0 hH with h | ⟨ts, te, ht⟩
    · exact h
    · cases ht
  | succ m ih =>
    intro R q log hR hq hfront hμ
    cases q with
    | nil =>
      rw [region_loop_empty src p c (m + 1) _ rfl]
      refine ⟨R, subset_rfl, hR, (by intro ty ts te ht; cases ht), ?_, rfl, rfl⟩
      intro r hr nb hnb h0 hH
      rcases hfront r hr nb hnb h0 hH with h | ⟨ts, te, ht⟩
      · exact h
      · cases ht
    | cons hd rest =>
      obtain ⟨y, s, e⟩ := hd
      obtain ⟨hwf1, hwf2, hwf3, hwf4, hwf5⟩ :=
        hq y s e (List.mem_cons_self _ _)
      rw [region_loop_cons src p c m ⟨rowsMask src.width R, (y, s, e) :: rest, log⟩
        y s e rest rfl]
      have hlen_cons : ((y, s, e) :: rest).length = rest.length + 1 :=
        List.length_cons _ _
      by_cases hy : y ∈ R
      · -- already-selected row: nothing happens, the span is consumed
        have hrow : process_row src p c y s e (rowsMask src.width R) log =
            (rowsMask src.width R, [], log) := by
          unfold process_row
          exact uniform_row_skip src p c R y e hy _ (s + 1) [] log
            (by omega) hwf5
        rw [hrow]
        have hres := ih R (rest ++ []) log hR
          (by
            intro ty ts te ht
            rw [List.append_nil] at ht
            exact hq ty ts te (List.mem_cons_of_mem _ ht))
          (by
            intro r hr nb hnb h0 hH
            rcases hfront r hr nb hnb h0 hH with h | ⟨ts, te, ht⟩
            · exact Or.inl h
            · rcases List.mem_cons.mp ht with heq | ht'
              · left
                have : nb = y := congrArg Prod.fst heq
                rw [this]
                exact hy
              · exact Or.inr ⟨ts, te, by rw [List.append_nil]; exact ht'⟩)
          (by
            have h2 : (rest ++ ([] : List (ℤ × ℤ × ℤ))).length = rest.length := by
              rw [List.append_nil]
            omega)
        obtain ⟨R', hRR', hR'b, hqR', hclos, hmask, hqueue⟩ := hres
        refine ⟨R', hRR', hR'b, ?_, hclos, hmask, hqueue⟩
        intro ty ts te ht
        rcases List.mem_cons.mp ht with heq | ht'
        · have : ty = y := congrArg Prod.fst heq
          rw [this]
          exact hRR' hy
        · exact hqR' ty ts te (by rw [List.append_nil]; exact ht')
      · -- new row: it gets fully selected and its neighbours pushed
        have hrow := uniform_row_fill src p c hev R y s e hy hwf1 hwf2
          hwf3 hwf4 hwf5 log
        rw [hrow]
        have hcard : (insert y R).card = R.card + 1 :=
          Finset.card_insert_of_not_mem hy
        have hsub : insert y R ⊆ Finset.Ico 0 src.height :=
          Finset.insert_subset_iff.mpr ⟨Finset.mem_Ico.mpr ⟨hwf1, hwf2⟩, hR⟩
        have hcard_le : (insert y R).card ≤ src.height.toNat := by
          have hcc := Finset.card_le_card hsub
          rwa [Int.card_Ico, Int.sub_zero] at hcc
        have hres := ih (insert y R)
          (rest ++ ((if y + 1 < src.height then [(y + 1, -1, src.width)] else []) ++
            (if 0 ≤ y - 1 then [(y - 1, -1, src.width)] else [])))
          (log ++ [(y, -1, src.width)]) hsub
          (by
            intro ty ts te ht
            rcases List.mem_append.mp ht with ht' | ht'
            · exact hq ty ts te (List.mem_cons_of_mem _ ht')
            · rcases List.mem_append.mp ht' with ht2 | ht2
              · by_cases hg : y + 1 < src.height
                · rw [if_pos hg] at ht2
                  have heq := List.mem_singleton.mp ht2
                  obtain ⟨h1, h2, h3⟩ : ty = y + 1 ∧ ts = -1 ∧ te = src.width := by
                    refine ⟨congrArg Prod.fst heq, ?_, ?_⟩
                    · exact congrArg (fun t => t.2.1) heq
                    · exact congrArg (fun t => t.2.2) heq
                  subst h1; subst h2; subst h3
                  exact ⟨by omega, hg, by omega, by omega, le_refl _⟩
                · rw [if_neg hg] at ht2; cases ht2
              · by_cases hg : 0 ≤ y - 1
                · rw [if_pos hg] at ht2
                  have heq := List.mem_singleton.mp ht2
                  obtain ⟨h1, h2, h3⟩ : ty = y - 1 ∧ ts = -1 ∧ te = src.width := by
                    refine ⟨congrArg Prod.fst heq, ?_, ?_⟩
                    · exact congrArg (fun t => t.2.1) heq
                    · exact congrArg (fun t => t.2.2) heq
                  subst h1; subst h2; subst h3
                  exact ⟨hg, by omega, by omega, by omega, le_refl _⟩
                · rw [if_neg hg] at ht2; cases ht2)
          (by
            intro r hr nb hnb h0 hH
            rcases Finset.mem_insert.mp hr with heq | hr'
            · -- neighbours of the newly selected row are freshly pushed
              subst heq
              right
              rcases hnb with heq1 | heq1
              · refine ⟨-1, src.width, ?_⟩
                apply List.mem_append.mpr
                right
                apply List.mem_append.mpr
                left
                rw [show nb = r + 1 from heq1, if_pos (by omega)]
                exact List.mem_singleton.mpr rfl
              · refine ⟨-1, src.width, ?_⟩
                apply List.mem_append.mpr
                right
                apply List.mem_append.mpr
                right
                rw [show nb = r - 1 from heq1, if_pos (by omega)]
                exact List.mem_singleton.mpr rfl
            · rcases hfront r hr' nb hnb h0 hH with h | ⟨ts, te, ht⟩
              · exact Or.inl (Finset.mem_insert_of_mem h)
              · rcases List.mem_cons.mp ht with heq | ht'
                · left
                  have : nb = y := congrArg Prod.fst heq
                  rw [this]
                  exact Finset.mem_insert_self y R
                · exact Or.inr ⟨ts, te, List.mem_append.mpr (Or.inl ht')⟩)
          (by
            have h2 : (rest ++
                ((if y + 1 < src.height then [(y + 1, -1, src.width)] else []) ++
                 (if 0 ≤ y - 1 then [(y - 1, -1, src.width)] else []))).length ≤
                rest.length + 2 := by
              rw [List.length_append]
              have h3 : ((if y + 1 < src.height then [(y + 1, -1, src.width)] else []) ++
                  (if 0 ≤ y - 1 then [(y - 1, -1, src.width)] else [])).length ≤ 2 := by
                by_cases hg1 : y + 1 < src.height <;> by_cases hg2 : 0 ≤ y - 1 <;>
                  simp [hg1, hg2]
              omega
            omega)
        obtain ⟨R', hRR', hR'b, hqR', hclos, hmask, hqueue⟩ := hres
        refine ⟨R', fun a ha => hRR' (Finset.mem_insert_of_mem ha), hR'b, ?_,
          hclos, hmask, hqueue⟩
        intro ty ts te ht
        rcases List.mem_cons.mp ht with heq | ht'
        · have : ty = y := congrArg Prod.fst heq
          rw [this]
          exact hRR' (Finset.mem_insert_self y R)
        · exact hqR' ty ts te (List.mem_append.mpr (Or.inl ht'))

/-- A set of in-bounds rows containing one row and closed under
in-bounds vertical neighbours contains every in-bounds row. -/
theorem rows_closure_all (H : ℤ) (R : Finset ℤ) (y0 : ℤ)
    (hy0 : y0 ∈ R) (hy0b : 0 ≤ y0 ∧ y0 < H)
    (hclos : ∀ r ∈ R, ∀ nb : ℤ, (nb = r + 1 ∨ nb = r - 1) → 0 ≤ nb →
      nb < H → nb ∈ R) :
    ∀ r : ℤ, 0 ≤ r → r < H → r ∈ R := by
  have hup : ∀ r : ℤ, y0 ≤ r → r < H → r ∈ R := by
    intro r hr
    refine @Int.le_induction (fun n => n < H → n ∈ R) y0 ?_ ?_ r hr
    · intro _
      exact hy0
    · intro k hk ihk hkH
      exact hclos k (ihk (by omega)) (k + 1) (Or.inl rfl) (by omega) hkH
  have hdown : ∀ r : ℤ, r ≤ y0 → 0 ≤ r → r ∈ R := by
    intro r hr
    refine @Int.le_induction_down (fun n => 0 ≤ n → n ∈ R) y0 ?_ ?_ r hr
    · intro _
      exact hy0
    · intro k hk ihk hk0
      exact hclos k (ihk (by omega)) (k - 1) (Or.inr rfl) hk0 (by omega)
  intro r h0 hH
  rcases le_total r y0 with h | h
  · exact hdown r h h0
  · exact hup r h hH

/-- The evaluator accepts every in-bounds pixel of a uniform image under
the stated proviso (the effective transparency flag after the seed
adjustment never triggers the transparent-sample rule). -/
theorem uniform_eval_one (W H : ℤ) (c : Color) (nc : ℕ) (ha st : Bool)
    (crit : SelectCriterion) (x y : ℤ)
    (hx : 0 ≤ x ∧ x < W) (hy : 0 ≤ y ∧ y < H)
    (hprov : ¬(ha = true ∧ c (nc - 1) = 0 ∧ st = false)) :
    ∀ cx cy : ℤ, 0 ≤ cx → cx < W → 0 ≤ cy → cy < H →
      evalAt ⟨W, H, nc, ha, fun _ _ => c⟩
        (seedParams ⟨W, H, nc, ha, fun _ _ => c⟩ false 0 st crit x y)
        (gegl_sample ⟨W, H, nc, ha, fun _ _ => c⟩ x y) cx cy = 1 := by
  intro cx cy h1 h2 h3 h4
  have hsample : gegl_sample ⟨W, H, nc, ha, fun _ _ => c⟩ x y = c := by
    unfold gegl_sample
    exact if_pos ⟨hx.1, hx.2, hy.1, hy.2⟩
  have hsample2 : gegl_sample ⟨W, H, nc, ha, fun _ _ => c⟩ cx cy = c := by
    unfold gegl_sample
    exact if_pos ⟨h1, h2, h3, h4⟩
  show pixel_difference (gegl_sample ⟨W, H, nc, ha, fun _ _ => c⟩ x y)
    (gegl_sample ⟨W, H, nc, ha, fun _ _ => c⟩ cx cy) false 0 nc ha
    (seed_select_transparent ⟨W, H, nc, ha, fun _ _ => c⟩ st
      (gegl_sample ⟨W, H, nc, ha, fun _ _ => c⟩ x y)) crit = 1
  rw [hsample, hsample2]
  apply pixel_difference_self_one c 0 nc ha _ crit le_rfl
  rintro ⟨hst', hha, hc0⟩
  have hstt : st = true := by
    cases hst2 : st
    · exact absurd ⟨hha, hc0, hst2⟩ hprov
    · rfl
  have hone : seed_select_transparent ⟨W, H, nc, ha, fun _ _ => c⟩ st c = true := by
    unfold seed_select_transparent
    show (if ha = true then _ else false) = true
    rw [hha, if_pos rfl, hstt, if_pos rfl]
    show (if c (nc - 1) > 0 then false else true) = true
    rw [hc0, if_neg (lt_irrefl 0)]
  rw [hone] at hst'
  exact absurd hst' (by decide)

/-- C2 (amended): seeding anywhere in a W×H image whose pixels all have
the identical color `c`, with threshold 0 and antialiasing off,
terminates — the work list drains — and fills every one of the W·H mask
cells with 1, provided the uniform color is not rejected outright by
the transparent-sample rule (i.e. except when the source has alpha, the
color is fully transparent, and transparency selection is off — the
counterexample shows that case selects nothing). -/
theorem C2_uniform_full_select (W H : ℤ) (c : Color) (nc : ℕ) (ha st : Bool)
    (crit : SelectCriterion) (x y : ℤ)
    (hW : 1 ≤ W) (_hH : 1 ≤ H) (hx : 0 ≤ x ∧ x < W) (hy : 0 ≤ y ∧ y < H)
    (hprov : ¬(ha = true ∧ c (nc - 1) = 0 ∧ st = false)) :
    ∃ fuel : ℕ,
      (by_seed_state ⟨W, H, nc, ha, fun _ _ => c⟩ false 0 st crit x y fuel).queue = [] ∧
      ∀ cx cy : ℤ, 0 ≤ cx → cx < W → 0 ≤ cy → cy < H →
        (by_seed_state ⟨W, H, nc, ha, fun _ _ => c⟩ false 0 st crit x y fuel).mask cx cy = 1 := by
  have hev := uniform_eval_one W H c nc ha st crit x y hx hy hprov
  have hWproj : (⟨W, H, nc, ha, fun _ _ => c⟩ : SrcBuffer).width = W := rfl
  have hHproj : (⟨W, H, nc, ha, fun _ _ => c⟩ : SrcBuffer).height = H := rfl
  have hdrain := uniform_drain ⟨W, H, nc, ha, fun _ _ => c⟩
    (seedParams ⟨W, H, nc, ha, fun _ _ => c⟩ false 0 st crit x y)
    (gegl_sample ⟨W, H, nc, ha, fun _ _ => c⟩ x y)
    (by rw [hWproj, hHproj]; exact hev) (by rw [hWproj]; exact hW)
    (2 * H.toNat + 1) ∅ [(y, x - 1, x + 1)] []
    (Finset.empty_subset _)
    (by
      intro ty ts te ht
      have heq := List.mem_singleton.mp ht
      obtain ⟨e1, e2, e3⟩ : ty = y ∧ ts = x - 1 ∧ te = x + 1 :=
        ⟨congrArg Prod.fst heq, congrArg (fun t => t.2.1) heq,
          congrArg (fun t => t.2.2) heq⟩
      subst e1; subst e2; subst e3
      rw [hWproj, hHproj]
      exact ⟨hy.1, hy.2, by omega, by omega, by omega⟩)
    (by intro r hr; cases hr)
    (by
      rw [hHproj]
      have hc0 : (∅ : Finset ℤ).card = 0 := Finset.card_empty
      have hl1 : ([(y, x - 1, x + 1)] : List (ℤ × ℤ × ℤ)).length = 1 := rfl
      omega)
  obtain ⟨R', -, hR'b, hqR', hclos, hmask, hqueue⟩ := hdrain
  have hyR' : y ∈ R' := hqR' y (x - 1) (x + 1) (List.mem_singleton.mpr rfl)
  have hall := rows_closure_all H R' y hyR' hy
    (by
      intro r hr nb hnb h0 hH2
      apply hclos r hr nb hnb h0
      rw [hHproj]
      exact hH2)
  refine ⟨2 * H.toNat + 1, ?_, ?_⟩
  · rw [by_seed_state_eq]
    show (region_loop _ _ _ _ ⟨zeroMask, [(y, x - 1, x + 1)], []⟩).queue = []
    rw [← rowsMask_empty W, ← hWproj] at *
    exact hqueue
  · intro cx cy h1 h2 h3 h4
    rw [by_seed_state_eq]
    show (region_loop _ _ _ _ ⟨zeroMask, [(y, x - 1, x + 1)], []⟩).mask cx cy = 1
    rw [← rowsMask_empty W, ← hWproj] at *
    rw [hmask]
    unfold rowsMask
    rw [if_pos ⟨hall cy h3 h4, h1, h2⟩]

/-- Witness for `C2_uniform_full_select` at a concrete input: a 2×2
uniform opaque image is fully selected from seed (0, 0). -/
theorem C2_uniform_full_select_witness :
    ∃ fuel : ℕ,
      (by_seed_state ⟨2, 2, 4, true, fun _ _ => opaqueBlack⟩
        false 0 false .composite 0 0 fuel).queue = [] ∧
      ∀ cx cy : ℤ, 0 ≤ cx → cx < 2 → 0 ≤ cy → cy < 2 →
        (by_seed_state ⟨2, 2, 4, true, fun _ _ => opaqueBlack⟩
          false 0 false .composite 0 0 fuel).mask cx cy = 1 :=
  C2_uniform_full_select 2 2 opaqueBlack 4 true false .composite 0 0
    (by norm_num) (by norm_num) (by norm_num) (by norm_num)
    (by rintro ⟨-, h, -⟩; exact absurd h (by norm_num [opaqueBlack]))

/-! ## C9: each cell is written at most once; unvisited cells stay 0 -/

/-- A bulk-write log entry `(row, start, end)` covers a mask cell. -/
def wcovers (src : SrcBuffer) (w : ℤ × ℤ × ℤ) (cx cy : ℤ) : Prop :=
  segWriteCovers src w.1 w.2.1 w.2.2 cx cy

/-- Two bulk writes touch no common mask cell. -/
def writesDisjoint (src : SrcBuffer) (w1 w2 : ℤ × ℤ × ℤ) : Prop :=
  ∀ cx cy : ℤ, wcovers src w1 cx cy → ¬wcovers src w2 cx cy

/-- The run invariant behind C9: every logged write is a well-formed
segment (boundaries at the buffer edge or at a column evaluating to 0,
interior evaluating non-zero), the logged writes are pairwise disjoint,
and the mask holds the evaluator value exactly on logged cells and 0
elsewhere. -/
def LogInv (src : SrcBuffer) (p : Params) (col : Color)
    (mask : Mask) (log : List (ℤ × ℤ × ℤ)) : Prop :=
  (∀ ly ls le : ℤ, (ly, ls, le) ∈ log →
    0 ≤ ly ∧ ly < src.height ∧ -1 ≤ ls ∧ ls + 1 < le ∧ le ≤ src.width ∧
    (ls = -1 ∨ evalAt src p col ls ly = 0) ∧
    (le = src.width ∨ evalAt src p col le ly = 0) ∧
    (∀ c : ℤ, ls < c → c < le → evalAt src p col c ly ≠ 0)) ∧
  List.Pairwise (writesDisjoint src) log ∧
  (∀ cx cy : ℤ, (∃ w ∈ log, wcovers src w cx cy) →
    mask cx cy = evalAt src p col cx cy) ∧
  (∀ cx cy : ℤ, (∀ w ∈ log, ¬wcovers src w cx cy) → mask cx cy = 0)

/-- A successful probe has a non-zero evaluation. -/
theorem segment_some_ne (src : SrcBuffer) (p : Params) (col : Color)
    (width x y : ℤ) (r : ℤ × ℤ)
    (h : find_contiguous_segment src p col width x y = some r) :
    evalAt src p col x y ≠ 0 := by
  intro h0
  unfold find_contiguous_segment at h
  rw [if_pos h0] at h
  cases h

/-- The key step: a successful probe at a zero mask cell appends a
write that is disjoint from every logged write, and the invariant is
preserved. -/
theorem log_step (src : SrcBuffer) (p : Params) (col : Color)
    (mask : Mask) (log : List (ℤ × ℤ × ℤ)) (x y : ℤ)
    (hx0 : 0 ≤ x) (hxW : x < src.width) (hy0 : 0 ≤ y) (hyH : y < src.height)
    (hinv : LogInv src p col mask log) (hmask0 : mask x y = 0)
    (ns ne : ℤ)
    (hseg : find_contiguous_segment src p col src.width x y = some (ns, ne)) :
    LogInv src p col (segWrite src p col mask y ns ne) (log ++ [(y, ns, ne)]) := by
  obtain ⟨hA, hB, hC1, hC2⟩ := hinv
  have hspec := find_contiguous_segment_spec src p col src.width x y ns ne hx0 hxW hseg
  obtain ⟨hns1, hns2, hne1, hne2, hbL, hbR, hint⟩ := hspec
  have hxne := segment_some_ne src p col src.width x y (ns, ne) hseg
  have hx_uncov : ∀ w ∈ log, ¬wcovers src w x y := by
    intro w hw hcov
    have := hC1 x y ⟨w, hw, hcov⟩
    rw [hmask0] at this
    exact hxne this.symm
  -- disjointness of the new write from each logged write
  have hdisj : ∀ w ∈ log, ∀ cx cy : ℤ,
      wcovers src w cx cy → ¬wcovers src (y, ns, ne) cx cy := by
    rintro ⟨ly, ls, le⟩ hw cx cy hcov1 hcov2
    have hcov1' : segWriteCovers src ly ls le cx cy := hcov1
    have hcov2' : segWriteCovers src y ns ne cx cy := hcov2
    obtain ⟨hcy1, hls, hle, hcx0, hcxW, -, -⟩ := hcov1'
    obtain ⟨hcy2, hns', hne', -, -, -, -⟩ := hcov2'
    have hly : ly = y := by omega
    subst hly
    obtain ⟨-, -, -, -, hleW, hbL', hbR', hint'⟩ := hA ly ls le hw
    -- the probe column x is not covered by the logged write
    have hxout : ¬(ls ≤ x ∧ x < le) := by
      intro hxin
      exact hx_uncov (ly, ls, le) hw ⟨rfl, hxin.1, hxin.2, hx0, hxW, hy0, hyH⟩
    rcases (by omega : x < ls ∨ le ≤ x) with hcase | hcase
    · -- the logged write starts right of the probe: its start column
      -- lies strictly inside the new segment and must evaluate non-zero,
      -- contradicting the boundary property
      have hls0 : evalAt src p col ls ly = 0 := by
        rcases hbL' with h | h
        · omega
        · exact h
      exact hint ls (by omega) (by omega) hls0
    · -- the logged write ends left of the probe: its end column lies
      -- strictly inside the new segment
      have hle0 : evalAt src p col le ly = 0 := by
        rcases hbR' with h | h
        · omega
        · exact h
      exact hint le (by omega) (by omega) hle0
  refine ⟨?_, ?_, ?_, ?_⟩
  · intro ly ls le hw
    rcases List.mem_append.mp hw with hw' | hw'
    · exact hA ly ls le hw'
    · have heq := List.mem_singleton.mp hw'
      obtain ⟨e1, e2, e3⟩ : ly = y ∧ ls = ns ∧ le = ne :=
        ⟨congrArg Prod.fst heq, congrArg (fun t => t.2.1) heq,
          congrArg (fun t => t.2.2) heq⟩
      subst e1; subst e2; subst e3
      exact ⟨hy0, hyH, hns1, by omega, hne2, hbL, hbR, hint⟩
  · rw [List.pairwise_append]
    refine ⟨hB, List.pairwise_singleton _ _, ?_⟩
    intro w1 hw1 w2 hw2
    have heq := List.mem_singleton.mp hw2
    subst heq
    exact hdisj w1 hw1
  · intro cx cy hcov
    obtain ⟨w, hw, hcovw⟩ := hcov
    rcases List.mem_append.mp hw with hw' | hw'
    · -- covered by an old write: the cell keeps its (correct) value
      have hold := hC1 cx cy ⟨w, hw', hcovw⟩
      unfold segWrite
      by_cases hnew : segWriteCovers src y ns ne cx cy
      · rw [if_pos hnew]
      · rw [if_neg hnew]
        exact hold
    · have heq := List.mem_singleton.mp hw'
      subst heq
      have hcovw' : segWriteCovers src y ns ne cx cy := hcovw
      unfold segWrite
      rw [if_pos hcovw']
  · intro cx cy hnone
    have hnew : ¬segWriteCovers src y ns ne cx cy :=
      hnone (y, ns, ne) (List.mem_append.mpr (Or.inr (List.mem_singleton.mpr rfl)))
    unfold segWrite
    rw [if_neg hnew]
    exact hC2 cx cy fun w hw => hnone w (List.mem_append.mpr (Or.inl hw))

/-- The inner loop preserves the log invariant, and only appends spans
with in-bounds rows and buffer-bounded columns to the work list. -/
theorem row_go_log_inv (src : SrcBuffer) (p : Params) (col : Color) (y e : ℤ)
    (hy0 : 0 ≤ y) (hyH : y < src.height) (he : e ≤ src.width) :
    ∀ (fuel : ℕ) (x : ℤ) (mask : Mask) (acc log : List (ℤ × ℤ × ℤ)),
      0 ≤ x →
      LogInv src p col mask log →
      LogInv src p col (row_go src p col y e fuel x mask acc log).1
        (row_go src p col y e fuel x mask acc log).2.2 ∧
      (∀ ty ts te : ℤ, (ty, ts, te) ∈ (row_go src p col y e fuel x mask acc log).2.1 →
        (ty, ts, te) ∈ acc ∨
        (0 ≤ ty ∧ ty < src.height ∧ -1 ≤ ts ∧ te ≤ src.width)) := by
  intro fuel
  induction fuel with
  | zero =>
    intro x mask acc log hx hinv
    exact ⟨hinv, fun ty ts te ht => Or.inl ht⟩
  | succ n ih =>
    intro x mask acc log hx hinv
    simp only [row_go]
    by_cases hxe : x < e
    · rw [if_pos hxe]
      by_cases hskip : mask x y ≠ 0
      · rw [if_pos hskip]
        exact ih (x + 1) mask acc log (by omega) hinv
      · rw [if_neg hskip]
        cases hseg : find_contiguous_segment src p col src.width x y with
        | none => exact ih (x + 1) mask acc log (by omega) hinv
        | some r =>
          obtain ⟨ns, ne⟩ := r
          have hmask0 : mask x y = 0 := not_not.mp hskip
          have hstep := log_step src p col mask log x y hx (by omega) hy0 hyH
            hinv hmask0 ns ne hseg
          have hspec := find_contiguous_segment_spec src p col src.width x y
            ns ne hx (by omega) hseg
          have h' := ih (x + 1) (segWrite src p col mask y ns ne)
            (acc ++ (if y + 1 < src.height then [(y + 1, ns, ne)] else []) ++
              (if 0 ≤ y - 1 then [(y - 1, ns, ne)] else []))
            (log ++ [(y, ns, ne)]) (by omega) hstep
          refine ⟨h'.1, ?_⟩
          intro ty ts te ht
          rcases h'.2 ty ts te ht with hin | hshape
          · rcases List.mem_append.mp hin with hin' | hin'
            · rcases List.mem_append.mp hin' with hin2 | hin2
              · exact Or.inl hin2
              · right
                by_cases hg : y + 1 < src.height
                · rw [if_pos hg] at hin2
                  have heq := List.mem_singleton.mp hin2
                  obtain ⟨e1, e2, e3⟩ : ty = y + 1 ∧ ts = ns ∧ te = ne :=
                    ⟨congrArg Prod.fst heq, congrArg (fun t => t.2.1) heq,
                      congrArg (fun t => t.2.2) heq⟩
                  subst e1; subst e2; subst e3
                  exact ⟨by omega, hg, hspec.1, hspec.2.2.2.1⟩
                · rw [if_neg hg] at hin2; cases hin2
            · right
              by_cases hg : 0 ≤ y - 1
              · rw [if_pos hg] at hin'
                have heq := List.mem_singleton.mp hin'
                obtain ⟨e1, e2, e3⟩ : ty = y - 1 ∧ ts = ns ∧ te = ne :=
                  ⟨congrArg Prod.fst heq, congrArg (fun t => t.2.1) heq,
                    congrArg (fun t => t.2.2) heq⟩
                subst e1; subst e2; subst e3
                exact ⟨hg, by omega, hspec.1, hspec.2.2.2.1⟩
              · rw [if_neg hg] at hin'; cases hin'
          · exact Or.inr hshape
    · rw [if_neg hxe]
      exact ⟨hinv, fun ty ts te ht => Or.inl ht⟩

/-- The outer loop preserves the log invariant. -/
theorem region_loop_log_inv (src : SrcBuffer) (p : Params) (col : Color) :
    ∀ (fuel : ℕ) (st : RState),
      (∀ ty ts te : ℤ, (ty, ts, te) ∈ st.queue →
        0 ≤ ty ∧ ty < src.height ∧ -1 ≤ ts ∧ te ≤ src.width) →
      LogInv src p col st.mask st.log →
      LogInv src p col (region_loop src p col fuel st).mask
        (region_loop src p col fuel st).log := by
  intro fuel
  induction fuel with
  | zero => intro st hq hinv; exact hinv
  | succ n ih =>
    intro st hq hinv
    cases hqe : st.queue with
    | nil =>
      rw [region_loop_empty src p col (n + 1) st hqe]
      exact hinv
    | cons hd rest =>
      obtain ⟨y, s, e⟩ := hd
      obtain ⟨hwf1, hwf2, hwf3, hwf4⟩ := hq y s e (by rw [hqe]; exact List.mem_cons_self _ _)
      rw [region_loop_cons src p col n st y s e rest hqe]
      have hrow := row_go_log_inv src p col y e hwf1 hwf2 hwf4
        (e - (s + 1)).toNat (s + 1) st.mask [] st.log (by omega) hinv
      apply ih
      · intro ty ts te ht
        rcases List.mem_append.mp ht with ht' | ht'
        · exact hq ty ts te (by rw [hqe]; exact List.mem_cons_of_mem _ ht')
        · rcases hrow.2 ty ts te ht' with hin | hshape
          · cases hin
          · exact hshape
      · exact hrow.1

/-- C9: during one seeded selection (any fuel), the bulk writes
performed are pairwise disjoint — every mask cell the algorithm reaches
is written exactly once — and every cell covered by no write still
holds the zero-initialized default. -/
theorem C9_write_once (src : SrcBuffer) (antialias : Bool) (threshold : ℚ)
    (st : Bool) (crit : SelectCriterion) (x y : ℤ) (fuel : ℕ)
    (hx : 0 ≤ x ∧ x < src.width) (hy : 0 ≤ y ∧ y < src.height) :
    List.Pairwise (writesDisjoint src)
      (by_seed_state src antialias threshold st crit x y fuel).log ∧
    (∀ cx cy : ℤ,
      (∀ w ∈ (by_seed_state src antialias threshold st crit x y fuel).log,
        ¬wcovers src w cx cy) →
      (by_seed_state src antialias threshold st crit x y fuel).mask cx cy = 0) := by
  have hinv0 : LogInv src (seedParams src antialias threshold st crit x y)
      (gegl_sample src x y) zeroMask [] := by
    refine ⟨?_, List.Pairwise.nil, ?_, ?_⟩
    · intro ly ls le hw; cases hw
    · rintro cx cy ⟨w, hw, -⟩; cases hw
    · intro cx cy h; rfl
  have hfinal := region_loop_log_inv src
    (seedParams src antialias threshold st crit x y) (gegl_sample src x y)
    fuel ⟨zeroMask, [(y, x - 1, x + 1)], []⟩
    (by
      intro ty ts te ht
      have heq := List.mem_singleton.mp ht
      obtain ⟨e1, e2, e3⟩ : ty = y ∧ ts = x - 1 ∧ te = x + 1 :=
        ⟨congrArg Prod.fst heq, congrArg (fun t => t.2.1) heq,
          congrArg (fun t => t.2.2) heq⟩
      subst e1; subst e2; subst e3
      exact ⟨hy.1, hy.2, by omega, by omega⟩)
    hinv0
  rw [by_seed_state_eq]
  exact ⟨hfinal.2.1, hfinal.2.2.2⟩

/-- Witness for `C9_write_once` at a concrete input. -/
theorem C9_write_once_witness :
    List.Pairwise (writesDisjoint uniformOpaqueSrc)
      (by_seed_state uniformOpaqueSrc false 0 false .composite 1 0 3).log ∧
    (∀ cx cy : ℤ,
      (∀ w ∈ (by_seed_state uniformOpaqueSrc false 0 false .composite 1 0 3).log,
        ¬wcovers uniformOpaqueSrc w cx cy) →
      (by_seed_state uniformOpaqueSrc false 0 false .composite 1 0 3).mask cx cy = 0) :=
  C9_write_once uniformOpaqueSrc false 0 false .composite 1 0 3
    (by decide) (by decide)

/-! ## C1: the extent of the bulk write -/

/-- Evaluations on the concrete 3×1 row: the left pixel differs from
the reference by 1 in every channel, the others match it exactly. -/
theorem rowSrc_eval0 : evalAt rowSrc rowParams transparentBlack 0 0 = 0 := by
  have hs : gegl_sample rowSrc 0 0 = fun _ => (1 : ℚ) := by
    unfold gegl_sample
    rw [if_pos (by decide)]
    rfl
  show pixel_difference transparentBlack (gegl_sample rowSrc 0 0)
    false 0 3 false false .composite = 0
  rw [hs, pixel_difference_eq,
    if_neg (by rintro ⟨-, h, -⟩; exact absurd h (by decide)),
    if_neg (by rintro ⟨h, -⟩; exact absurd h (by decide))]
  have hraw : raw_max transparentBlack (fun _ => (1 : ℚ)) 3 false false .composite = 1 := by
    rw [raw_max_composite _ _ _ _ _ (by rintro ⟨-, h⟩; exact absurd h (by decide))]
    have e1 : composite_max transparentBlack (fun _ => (1 : ℚ))
        (if (false : Bool) = true then 3 - 1 else 3) =
        max (max (max 0 |transparentBlack 0 - 1|) |transparentBlack 1 - 1|)
          |transparentBlack 2 - 1| := rfl
    rw [e1]
    have ht : ∀ i : ℕ, transparentBlack i = 0 := fun _ => rfl
    rw [ht 0, ht 1, ht 2]
    rw [show |(0 : ℚ) - 1| = 1 by rw [abs_sub_comm]; simp]
    rw [max_eq_right (by norm_num : (0 : ℚ) ≤ 1), max_self, max_self]
  rw [hraw, if_pos (by norm_num)]

theorem rowSrc_eval_pos (c : ℤ) (h1 : 1 ≤ c) (h2 : c < 3) :
    evalAt rowSrc rowParams transparentBlack c 0 = 1 := by
  have hs : gegl_sample rowSrc c 0 = transparentBlack := by
    unfold gegl_sample
    rw [if_pos ⟨(by omega : (0 : ℤ) ≤ c), (by omega : c < 3),
      (by norm_num : (0 : ℤ) ≤ 0), (by norm_num : (0 : ℤ) < 1)⟩]
    show (if c = 0 then (fun _ => (1 : ℚ)) else (fun _ => (0 : ℚ))) = transparentBlack
    rw [if_neg (by omega)]
    rfl
  show pixel_difference transparentBlack (gegl_sample rowSrc c 0)
    false 0 3 false false .composite = 1
  rw [hs]
  exact pixel_difference_self_one transparentBlack 0 3 false false .composite
    le_rfl (by rintro ⟨-, h, -⟩; exact absurd h (by decide))

/-- The concrete probe: seeding the segment finder at column 1 of the
3×1 row stops left at column 0 (whose evaluation is 0) and right at the
buffer edge, returning `(0, 3)`. -/
theorem C1_concrete_segment :
    find_contiguous_segment rowSrc rowParams transparentBlack 3 1 0 = some (0, 3) := by
  unfold find_contiguous_segment
  rw [if_neg (by rw [rowSrc_eval_pos 1 (by norm_num) (by norm_num)]; norm_num)]
  have hL : seg_left (fun c => evalAt rowSrc rowParams transparentBlack c 0) (1 - 1) = 0 := by
    show seg_left_go (fun c => evalAt rowSrc rowParams transparentBlack c 0) 1 0 = 0
    simp only [seg_left_go]
    rw [if_neg (by
      rintro ⟨-, h⟩
      exact h rowSrc_eval0)]
  have hR : seg_right (fun c => evalAt rowSrc rowParams transparentBlack c 0) 3 (1 + 1) = 3 := by
    show seg_right_go (fun c => evalAt rowSrc rowParams transparentBlack c 0) 3 1 2 = 3
    simp only [seg_right_go]
    rw [if_pos ⟨by norm_num, by
      rw [rowSrc_eval_pos 2 (by norm_num) (by norm_num)]; norm_num⟩]
    rfl
  rw [hL, hR]

/-- C1 counterexample: in the concrete run above the write rectangle
`GEGL_RECTANGLE (start, y, end − start, 1)` covers the returned left
stop column `start = 0` itself, which the claimed interval
`[start+1, end)` excludes — the bulk write is `[start, end)`, not
`[start+1, end)`. -/
theorem C1_counterexample :
    find_contiguous_segment rowSrc rowParams transparentBlack 3 1 0 = some (0, 3) ∧
    segWriteCovers rowSrc 0 0 3 0 0 ∧
    ¬((0 : ℤ) + 1 ≤ 0) :=
  ⟨C1_concrete_segment, by decide, by decide⟩

/-- C1 (amended): on a successful in-bounds probe returning `(s, e)`,
the bulk write covers exactly the clipped rectangle `[max s 0, e)` on
row `y` — the left stop column `s` is written too (when in bounds),
with its evaluated value 0, while the right stop column `e` is not
written; every written column receives its evaluated similarity value,
and cells outside the rectangle are untouched. -/
theorem C1_segment_write (src : SrcBuffer) (p : Params) (col : Color)
    (x y s e : ℤ) (hx : 0 ≤ x ∧ x < src.width) (hy : 0 ≤ y ∧ y < src.height)
    (hseg : find_contiguous_segment src p col src.width x y = some (s, e)) :
    (∀ cx cy : ℤ, segWriteCovers src y s e cx cy ↔
      (cy = y ∧ max s 0 ≤ cx ∧ cx < e)) ∧
    (¬segWriteCovers src y s e e y) ∧
    (0 ≤ s → evalAt src p col s y = 0) ∧
    (∀ (mask : Mask) (cx : ℤ), s ≤ cx → cx < e → 0 ≤ cx →
      segWrite src p col mask y s e cx y = evalAt src p col cx y) ∧
    (∀ (mask : Mask) (cx cy : ℤ), ¬segWriteCovers src y s e cx cy →
      segWrite src p col mask y s e cx cy = mask cx cy) := by
  have hspec := find_contiguous_segment_spec src p col src.width x y s e hx.1 hx.2 hseg
  obtain ⟨hs1, hs2, he1, he2, hbL, hbR, -⟩ := hspec
  refine ⟨?_, ?_, ?_, ?_, ?_⟩
  · intro cx cy
    constructor
    · rintro ⟨h1, h2, h3, h4, -, -, -⟩
      exact ⟨h1, by omega, h3⟩
    · rintro ⟨h1, h2, h3⟩
      exact ⟨h1, by omega, h3, by omega, by omega, by omega, by omega⟩
  · rintro ⟨-, -, h3, -, -, -, -⟩
    exact absurd h3 (lt_irrefl e)
  · intro hs0
    rcases hbL with h | h
    · omega
    · exact h
  · intro mask cx hcx1 hcx2 hcx3
    unfold segWrite
    rw [if_pos ⟨rfl, hcx1, hcx2, hcx3, by omega, hy.1, hy.2⟩]
  · intro mask cx cy hncov
    unfold segWrite
    rw [if_neg hncov]

/-- Witness for `C1_segment_write` on the concrete 3×1 row. -/
theorem C1_segment_write_witness :
    ¬segWriteCovers rowSrc 0 0 3 3 0 ∧
    segWrite rowSrc rowParams transparentBlack zeroMask 0 0 3 1 0 =
      evalAt rowSrc rowParams transparentBlack 1 0 := by
  have h := C1_segment_write rowSrc rowParams transparentBlack 1 0 0 3
    (by decide) (by decide) C1_concrete_segment
  exact ⟨h.2.1, h.2.2.2.1 zeroMask 1 (by norm_num) (by norm_num) (by norm_num)⟩


end Gimp
